import Mathlib

/-!
# teamcity-dl: download and extraction of a build's artifact archive

A shallow embedding of `cmd/teamcity-dl/main.go` (`run`, `download`, `extractZip`,
`extractZipFile`) together with the parts of the Go standard library the program
calls: `path/filepath` (`Clean`, `Join`, `Dir` on a Unix host, where
`os.PathSeparator` is `/`), `strings` (`HasPrefix`, `TrimSpace`, `TrimRight`) and the
file-system calls of `os` (`MkdirAll`, `Create`, `Remove`) with `filepath.Walk`.

A Go string is modelled as the list of its bytes, one `Char` per byte.  The file
system is a finite map from absolute locations (the list of path components below
the root) to nodes; relative paths are resolved against a working directory `cwd`.
Symbolic links, permissions and concurrent writers are not modelled.
-/

namespace TeamcityDl

/-! ## Strings and `path/filepath` -/

/-- A Go string: its bytes in order. -/
abbrev Str := List Char

/-- The constant `os.PathSeparator` of a Unix host. -/
def sep : Char := '/'

/-- The path element `..`. -/
def dotdot : Str := ['.', '.']

/-- The function `strings.HasPrefix(s, pre)`. -/
def HasPrefix (s pre : Str) : Bool := pre.isPrefixOf s

/-- The elements of a path: the pieces between separators, empty pieces included
(what `strings.Split(path, "/")` returns). -/
def splitSep : Str → List Str
  | [] => [[]]
  | c :: cs =>
    if c = sep then [] :: splitSep cs
    else match splitSep cs with
      | [] => [[c]]
      | w :: ws => (c :: w) :: ws

/-- Elements written back with one separator between neighbours. -/
def joinSep : List Str → Str
  | [] => []
  | [e] => e
  | e :: e' :: es => e ++ sep :: joinSep (e' :: es)

/-- The test `out.w > dotdot` of `filepath.Clean`: the output buffer ends in an
element that a `..` may remove (an element that is not itself a kept `..`). -/
def canBacktrack (out : List Str) : Bool :=
  match out.getLast? with
  | some l => l ≠ dotdot
  | none => false

/-- One round of the loop of `filepath.Clean`, on the next path element `e`, with
`out` the elements written so far: an empty element and `.` are dropped, `..`
removes the last element when it can backtrack, is kept when the path is not rooted
and is dropped at the root; any other element is appended. -/
def cleanStep (rooted : Bool) (out : List Str) (e : Str) : List Str :=
  if e = [] then out
  else if e = ['.'] then out
  else if e = dotdot then
    if canBacktrack out then out.dropLast
    else if !rooted then out ++ [dotdot]
    else out
  else out ++ [e]

/-- Whether a path begins with the separator (`os.IsPathSeparator(path[0])`). -/
def isRooted (path : Str) : Bool := path.head? = some sep

/-- The elements `filepath.Clean` keeps for a path. -/
def cleanElems (path : Str) : List Str :=
  (splitSep path).foldl (cleanStep (isRooted path)) []

/-- The text of a cleaned path with the given elements: a rooted path starts with
the separator, and a non-rooted path without elements is `.`. -/
def render (rooted : Bool) (out : List Str) : Str :=
  if rooted then sep :: joinSep out
  else if out = [] then ['.'] else joinSep out

/-- The function `filepath.Clean`: the shortest path equivalent to `path` by purely
lexical processing. -/
def Clean (path : Str) : Str :=
  if path = [] then ['.']
  else render (isRooted path) (cleanElems path)

/-- The function `filepath.Join(a, b)`: empty arguments are ignored, the others are
joined with a separator and the result is cleaned; two empty arguments give the
empty string. -/
def Join (a b : Str) : Str :=
  if a ≠ [] then Clean (a ++ sep :: b)
  else if b ≠ [] then Clean b
  else []

/-- The part of a path up to and including its last separator (`path[:i+1]` in
`filepath.Dir`); empty when the path has no separator. -/
def dirPart : Str → Str
  | [] => []
  | c :: cs =>
    if sep ∈ cs then c :: dirPart cs
    else if c = sep then [c]
    else []

/-- The function `filepath.Dir`: all but the last element of the path, cleaned. -/
def Dir (path : Str) : Str := Clean (dirPart path)

/-! ## Package `strings`: `TrimSpace` with `unicode/utf8` -/

/-- The constant `utf8.RuneError`. -/
def RuneError : Nat := 0xFFFD

/-- The byte at index `i` of a string (0 past the end). -/
def byteAt (s : Str) (i : Nat) : Nat :=
  match s.get? i with
  | some c => c.toNat
  | none => 0

/-- The function `unicode.IsSpace`: white space of Latin-1 and the other code points
with the property `White_Space`. -/
def IsSpace (r : Nat) : Bool :=
  if r ≤ 0xFF then
    r = 0x09 || r = 0x0A || r = 0x0B || r = 0x0C || r = 0x0D || r = 0x20 ||
      r = 0x85 || r = 0xA0
  else
    r = 0x1680 || (0x2000 ≤ r && r ≤ 0x200A) || r = 0x2028 || r = 0x2029 ||
      r = 0x202F || r = 0x205F || r = 0x3000

/-- The table `asciiSpace` of package `strings`. -/
def asciiSpace (b : Nat) : Bool :=
  b = 0x09 || b = 0x0A || b = 0x0B || b = 0x0C || b = 0x0D || b = 0x20

/-- The function `utf8.DecodeRuneInString`: the first rune of the string and its width
in bytes; `(RuneError, 1)` for an invalid or cut encoding, `(RuneError, 0)` for the
empty string. -/
def DecodeRuneInString (s : Str) : Nat × Nat :=
  match s with
  | [] => (RuneError, 0)
  | c0 :: rest =>
    let b0 := c0.toNat
    if b0 < 0x80 then (b0, 1)
    else if b0 < 0xC2 || 0xF4 < b0 then (RuneError, 1)
    else
      let sz := if b0 < 0xE0 then 2 else if b0 < 0xF0 then 3 else 4
      let lo := if b0 = 0xE0 then 0xA0 else if b0 = 0xF0 then 0x90 else 0x80
      let hi := if b0 = 0xED then 0x9F else if b0 = 0xF4 then 0x8F else 0xBF
      if s.length < sz then (RuneError, 1)
      else
        match rest with
        | [] => (RuneError, 1)
        | c1 :: rest1 =>
          let b1 := c1.toNat
          if b1 < lo || hi < b1 then (RuneError, 1)
          else if sz ≤ 2 then ((b0 % 32) * 64 + b1 % 64, 2)
          else
            match rest1 with
            | [] => (RuneError, 1)
            | c2 :: rest2 =>
              let b2 := c2.toNat
              if b2 < 0x80 || 0xBF < b2 then (RuneError, 1)
              else if sz ≤ 3 then ((b0 % 16) * 4096 + (b1 % 64) * 64 + b2 % 64, 3)
              else
                match rest2 with
                | [] => (RuneError, 1)
                | c3 :: _ =>
                  let b3 := c3.toNat
                  if b3 < 0x80 || 0xBF < b3 then (RuneError, 1)
                  else ((b0 % 8) * 262144 + (b1 % 64) * 4096 + (b2 % 64) * 64 + b3 % 64, 4)

/-- The function `utf8.RuneStart`: the byte is not a continuation byte. -/
def RuneStart (b : Nat) : Bool := !(0x80 ≤ b && b < 0xC0)

/-- Where `utf8.DecodeLastRuneInString` starts decoding: it goes back from the byte
before the last one, over at most `UTFMax` bytes, to a byte that starts a rune. -/
def lastRuneStart (s : Str) : Nat :=
  let en := s.length
  if 2 ≤ en && RuneStart (byteAt s (en - 2)) then en - 2
  else if en < 3 then 0
  else if RuneStart (byteAt s (en - 3)) then en - 3
  else if en < 4 then 0
  else if RuneStart (byteAt s (en - 4)) then en - 4
  else if en < 5 then 0
  else en - 5

/-- The function `utf8.DecodeLastRuneInString`: the last rune of the string and its
width in bytes. -/
def DecodeLastRuneInString (s : Str) : Nat × Nat :=
  if s = [] then (RuneError, 0)
  else if byteAt s (s.length - 1) < 0x80 then (byteAt s (s.length - 1), 1)
  else
    let start := lastRuneStart s
    let rs := DecodeRuneInString (s.drop start)
    if start + rs.2 ≠ s.length then (RuneError, 1) else rs

/-- The loop of `strings.TrimLeftFunc(s, unicode.IsSpace)`, with one unit of fuel per
byte: the string from its first rune that is not white space. -/
def trimLeftLoop : Nat → Str → Str
  | 0, _ => []
  | n + 1, s =>
    if s = [] then []
    else if IsSpace (DecodeRuneInString s).1 then
      trimLeftLoop n (s.drop (DecodeRuneInString s).2)
    else s

/-- The function `strings.TrimLeftFunc(s, unicode.IsSpace)`. -/
def TrimLeftFunc (s : Str) : Str := trimLeftLoop s.length s

/-- The loop of `lastIndexFunc(s, unicode.IsSpace, false)`, from index `i` down: the
index of the last rune that is not white space. -/
def lastIndexLoop (s : Str) : Nat → Nat → Option Nat
  | 0, _ => none
  | n + 1, i =>
    if i = 0 then none
    else
      let rs := DecodeLastRuneInString (s.take i)
      if !IsSpace rs.1 then some (i - rs.2)
      else lastIndexLoop s n (i - rs.2)

/-- The function `strings.TrimRightFunc(s, unicode.IsSpace)`. -/
def TrimRightFunc (s : Str) : Str :=
  match lastIndexLoop s s.length s.length with
  | none => []
  | some i =>
    if 0x80 ≤ byteAt s i then s.take (i + (DecodeRuneInString (s.drop i)).2)
    else s.take (i + 1)

/-- The first loop of `strings.TrimSpace`: leading ASCII white space is skipped; at a
byte that is not ASCII the rest goes to the rune-wise functions (left result). -/
def trimStart : Str → Str ⊕ Str
  | [] => Sum.inr []
  | c :: cs =>
    if 0x80 ≤ c.toNat then Sum.inl (c :: cs)
    else if asciiSpace c.toNat then trimStart cs
    else Sum.inr (c :: cs)

/-- The second loop of `strings.TrimSpace`, on the reversed string: trailing ASCII
white space is skipped; at a byte that is not ASCII what is left goes to
`TrimRightFunc` (left result). -/
def trimStop : Str → Str ⊕ Str
  | [] => Sum.inr []
  | c :: cs =>
    if 0x80 ≤ c.toNat then Sum.inl (c :: cs).reverse
    else if asciiSpace c.toNat then trimStop cs
    else Sum.inr (c :: cs).reverse

/-- The function `strings.TrimSpace`: the string without leading and trailing white
space, as defined by Unicode. -/
def TrimSpace (s : Str) : Str :=
  match trimStart s with
  | Sum.inl t => TrimRightFunc (TrimLeftFunc t)
  | Sum.inr t =>
    match trimStop t.reverse with
    | Sum.inl u => TrimRightFunc u
    | Sum.inr u => u

/-- The function `strings.TrimRight(s, "/")`, on the reversed string. -/
def dropSlashes : Str → Str
  | [] => []
  | c :: cs => if c = '/' then dropSlashes cs else c :: cs

/-- The function `strings.TrimRight(s, "/")`. -/
def TrimRightSlash (s : Str) : Str := (dropSlashes s.reverse).reverse

/-! ## The file system -/

/-- An absolute location: the path components below the root, the root being `[]`. -/
abbrev Loc := List Str

/-- A node of the file system: a directory or a regular file with its bytes. -/
inductive Node where
  | dir
  | file (content : Str)
  deriving DecidableEq

/-- A file-system state: the nodes present, by location.  The root is always a
directory and has no entry of its own. -/
abbrev FS := Finmap (fun _ : Loc => Node)

/-- One step of path resolution by the operating system: `.` and empty elements stay
in place, `..` goes to the parent (the root is its own parent), a name goes down. -/
def resolveStep (acc : Loc) (e : Str) : Loc :=
  if e = [] then acc
  else if e = ['.'] then acc
  else if e = dotdot then acc.dropLast
  else acc ++ [e]

/-- The starting point of resolution: the root for a rooted path, else the working
directory. -/
def startOf (cwd : Loc) (path : Str) : Loc := if isRooted path then [] else cwd

/-- The location a path names: its elements followed from the starting point. -/
def resolve (cwd : Loc) (path : Str) : Loc :=
  (splitSep path).foldl resolveStep (startOf cwd path)

/-- The node recorded at a location, the root being a directory. -/
def nodeAt (fs : FS) (loc : Loc) : Option Node :=
  if loc = [] then some Node.dir else fs.lookup loc

/-- Whether the walk from the root to `loc` passes only through directories, as the
kernel requires of every path it resolves. -/
def reachable (fs : FS) (loc : Loc) : Bool :=
  loc.inits.all (fun q => decide (q = loc ∨ nodeAt fs q = some Node.dir))

/-- What `os.Stat` finds at a location: the node there when the walk to it succeeds. -/
def stat (fs : FS) (loc : Loc) : Option Node :=
  if reachable fs loc then nodeAt fs loc else none

/-- Whether a node is a regular file. -/
def Node.isFile : Node → Bool
  | Node.file _ => true
  | Node.dir => false

/-- Whether `os.Lstat` finds a regular file at a location. -/
def isFileAt (fs : FS) (loc : Loc) : Bool :=
  match stat fs loc with
  | some n => n.isFile
  | none => false

/-- Error numbers of the system calls used. -/
inductive Errno where
  | ENOENT
  | ENOTDIR
  | EISDIR
  | ENOTEMPTY
  deriving DecidableEq

/-- The errors the program returns. -/
inductive Err where
  /-- The error `fmt.Errorf("usage: teamcity-dl <build-id> [output-dir]")`. -/
  | usage
  /-- The error `fmt.Errorf("TEAMCITY_TOKEN environment variable not set")`. -/
  | noToken
  /-- The error `fmt.Errorf("invalid file path: %s", f.Name)`. -/
  | invalidPath (name : Str)
  /-- The error `fmt.Errorf("HTTP %d: %s", resp.StatusCode, body)`. -/
  | http (status : Nat) (body : Str)
  /-- A `*fs.PathError` of package `os`. -/
  | os (op : Str) (path : Str) (errno : Errno)
  /-- An error of `net/http` or `archive/zip`, with its text. -/
  | lib (msg : Str)
  /-- The error `fmt.Errorf(stage + ": %w", err)`. -/
  | wrap (stage : Str) (inner : Err)
  deriving DecidableEq

/-- The text of an error number. -/
def Errno.text : Errno → Str
  | Errno.ENOENT => "no such file or directory".toList
  | Errno.ENOTDIR => "not a directory".toList
  | Errno.EISDIR => "is a directory".toList
  | Errno.ENOTEMPTY => "directory not empty".toList

/-- The method `Error()`: the message of an error. -/
def Err.Error : Err → Str
  | Err.usage => "usage: teamcity-dl <build-id> [output-dir]".toList
  | Err.noToken => "TEAMCITY_TOKEN environment variable not set".toList
  | Err.invalidPath name => "invalid file path: ".toList ++ name
  | Err.http status body => "HTTP ".toList ++ Nat.toDigits 10 status ++ ": ".toList ++ body
  | Err.os op path errno => op ++ " ".toList ++ path ++ ": ".toList ++ errno.text
  | Err.lib msg => msg
  | Err.wrap stage inner => stage ++ ": ".toList ++ inner.Error

/-- What a call leaves behind: the error it returns, if any, and the file system. -/
structure Outcome where
  err : Option Err
  fs : FS

/-- The scan of `os.MkdirAll` below `base`: each further component must be a
directory or is created as one; a regular file in the way is `ENOTDIR`. -/
def mkdirFrom (path : Str) : Loc → List Str → FS → Outcome
  | _, [], fs => ⟨none, fs⟩
  | base, e :: es, fs =>
    match fs.lookup (base ++ [e]) with
    | some Node.dir => mkdirFrom path (base ++ [e]) es fs
    | some (Node.file _) => ⟨some (Err.os "mkdir".toList path Errno.ENOTDIR), fs⟩
    | none => mkdirFrom path (base ++ [e]) es (fs.insert (base ++ [e]) Node.dir)

/-- The function `os.MkdirAll(path, 0o755)`: creates the directory at `path` with all
missing parents; nothing to do when it is already a directory.  The empty path names
nothing (`ENOENT`). -/
def MkdirAll (cwd : Loc) (path : Str) (fs : FS) : Outcome :=
  if path = [] then ⟨some (Err.os "mkdir".toList path Errno.ENOENT), fs⟩
  else mkdirFrom path [] (resolve cwd path) fs

/-- The function `os.Create(path)`: the parent must be a directory that the walk
reaches and `path` must not be a directory; the file is created, or truncated when it
exists, so that it is empty afterwards. -/
def Create (cwd : Loc) (path : Str) (fs : FS) : Outcome :=
  if path = [] then ⟨some (Err.os "open".toList path Errno.ENOENT), fs⟩
  else
    let loc := resolve cwd path
    match stat fs loc.dropLast with
    | some Node.dir =>
      if nodeAt fs loc = some Node.dir then ⟨some (Err.os "open".toList path Errno.EISDIR), fs⟩
      else ⟨none, fs.insert loc (Node.file [])⟩
    | some (Node.file _) => ⟨some (Err.os "open".toList path Errno.ENOTDIR), fs⟩
    | none => ⟨some (Err.os "open".toList path Errno.ENOENT), fs⟩

/-- Writing `bytes` to the file just created at `path` (`io.Copy(out, rc)` followed by
the deferred `Close`). -/
def writeAll (cwd : Loc) (path : Str) (bytes : Str) (fs : FS) : FS :=
  fs.insert (resolve cwd path) (Node.file bytes)

/-- The function `os.Remove(path)`: unlinks a file, removes a directory that has no
entries. -/
def Remove (cwd : Loc) (path : Str) (fs : FS) : Outcome :=
  let loc := resolve cwd path
  match stat fs loc with
  | some (Node.file _) => ⟨none, fs.erase loc⟩
  | some Node.dir =>
    if loc = [] ∨ (fs.keys.filter (fun q => q ≠ [] ∧ q.dropLast = loc)).card ≠ 0 then
      ⟨some (Err.os "remove".toList path Errno.ENOTEMPTY), fs⟩
    else ⟨none, fs.erase loc⟩
  | none => ⟨some (Err.os "remove".toList path Errno.ENOENT), fs⟩

/-- The count made by the callback of `filepath.Walk(root, ...)` in `run`: the nodes
at or below `root` that the walk visits and that are not directories.  The walk
visits a node when every node on the way to it is a directory; when `root` itself
cannot be stat-ed the callback gets no `info` and counts nothing. -/
def walkCount (cwd : Loc) (root : Str) (fs : FS) : Nat :=
  (fs.keys.filter (fun p => resolve cwd root <+: p ∧ isFileAt fs p = true)).card

/-! ## Archive extraction (`extractZip`, `extractZipFile`) -/

/-- What reading an archive entry gives: `f.Open()` fails, or the copy fails after
some bytes were written (each with the text of the error of `archive/zip`), or the
whole content is read. -/
inductive Payload where
  | openFails (msg : Str)
  | copyFails (written : Str) (msg : Str)
  | data (content : Str)
  deriving DecidableEq

/-- An archive entry (`*zip.File`): its name, whether the mode recorded in its header
has the directory bit, and what reading it gives. -/
structure File where
  Name : Str
  modeDir : Bool
  payload : Payload
  deriving DecidableEq

/-- The value `f.FileInfo().IsDir()`: the mode of an entry is a directory mode when
the header says so or when the name ends with a slash. -/
def File.IsDir (f : File) : Bool :=
  f.modeDir || (f.Name.getLast? = some sep)

/-- The function `extractZipFile(f, destDir)` of `main.go`. -/
def extractZipFile (cwd : Loc) (f : File) (destDir : Str) (fs : FS) : Outcome :=
  -- Sanitize path to prevent zip slip
  let destPath := Join destDir f.Name
  if !HasPrefix destPath (Clean destDir ++ [sep]) then
    ⟨some (Err.invalidPath f.Name), fs⟩
  else if f.IsDir then
    MkdirAll cwd destPath fs
  else
    match MkdirAll cwd (Dir destPath) fs with
    | ⟨some e, fs1⟩ => ⟨some e, fs1⟩
    | ⟨none, fs1⟩ =>
      match f.payload with
      | Payload.openFails msg => ⟨some (Err.lib msg), fs1⟩
      | Payload.copyFails written msg =>
        match Create cwd destPath fs1 with
        | ⟨some e', fs2⟩ => ⟨some e', fs2⟩
        | ⟨none, fs2⟩ => ⟨some (Err.lib msg), writeAll cwd destPath written fs2⟩
      | Payload.data content =>
        match Create cwd destPath fs1 with
        | ⟨some e', fs2⟩ => ⟨some e', fs2⟩
        | ⟨none, fs2⟩ => ⟨none, writeAll cwd destPath content fs2⟩

/-- The loop `for _, f := range r.File` of `extractZip`: the entries in archive order,
stopping at the first error. -/
def extractFiles (cwd : Loc) (destDir : Str) : List File → FS → Outcome
  | [], fs => ⟨none, fs⟩
  | f :: rest, fs =>
    match extractZipFile cwd f destDir fs with
    | ⟨some e, fs1⟩ => ⟨some e, fs1⟩
    | ⟨none, fs1⟩ => extractFiles cwd destDir rest fs1

/-- The function `extractZip(zipPath, destDir)` of `main.go`.  The archive reader
`zip.OpenReader(zipPath)` belongs to the standard library: its result `r`, the
entries of the archive or an error, stands for `zipPath`.  What reading an entry gives
is fixed when the archive is opened: the extraction is taken not to write to the
archive file itself. -/
def extractZip (cwd : Loc) (r : Except Err (List File)) (destDir : Str) (fs : FS) : Outcome :=
  match r with
  | Except.error e => ⟨some e, fs⟩
  | Except.ok files => extractFiles cwd destDir files fs

/-! ## The fetcher (`download`) and `run` -/

/-- What the program reads of an HTTP response: the status code (a number of three
digits, so not negative), the bytes of the body that arrive, and the error with which
reading the body ends when the transfer is interrupted. -/
structure Response where
  StatusCode : Nat
  Body : Str
  readErr : Option Str

/-- The constant `http.StatusOK`. -/
def StatusOK : Nat := 200

/-- The network as the program sees it: the answer to the GET request for a URL with a
bearer token (`http.NewRequest` and `client.Do`), a response or an error. -/
abbrev Net := Str → Str → Except Err Response

/-- The function `download(url, token, destPath)` of `main.go`. -/
def download (net : Net) (cwd : Loc) (url token destPath : Str) (fs : FS) : Outcome :=
  match MkdirAll cwd (Dir destPath) fs with
  | ⟨some e, fs1⟩ => ⟨some e, fs1⟩
  | ⟨none, fs1⟩ =>
    match net url token with
    | Except.error e => ⟨some e, fs1⟩
    | Except.ok resp =>
      if resp.StatusCode ≠ StatusOK then
        -- body, _ := io.ReadAll(io.LimitReader(resp.Body, 4096))
        ⟨some (Err.http resp.StatusCode (TrimSpace (resp.Body.take 4096))), fs1⟩
      else
        match Create cwd destPath fs1 with
        | ⟨some e, fs2⟩ => ⟨some e, fs2⟩
        | ⟨none, fs2⟩ =>
          -- written, err := io.Copy(f, resp.Body)
          match resp.readErr with
          | some msg => ⟨some (Err.lib msg), writeAll cwd destPath resp.Body fs2⟩
          | none => ⟨none, writeAll cwd destPath resp.Body fs2⟩

/-- The function `zip.OpenReader(zipPath)`: the file is read and decoded; `unzip`
stands for the decoder of `archive/zip`. -/
def OpenReader (unzip : Str → Except Err (List File)) (cwd : Loc) (zipPath : Str) (fs : FS) :
    Except Err (List File) :=
  match stat fs (resolve cwd zipPath) with
  | some (Node.file bytes) => unzip bytes
  | some Node.dir => Except.error (Err.os "read".toList zipPath Errno.EISDIR)
  | none => Except.error (Err.os "open".toList zipPath Errno.ENOENT)

/-- The constant `defaultBaseURL`. -/
def defaultBaseURL : Str := "https://teamcity.cockroachdb.com".toList

/-- The URL `run` requests for a build. -/
def artifactsURL (baseURL buildID : Str) : Str :=
  TrimRightSlash (if baseURL = [] then defaultBaseURL else baseURL) ++
    "/app/rest/builds/id:".toList ++ buildID ++ "/artifacts/archived".toList

/-- The path of the archive file: `filepath.Join(outDir, "build-<id>-artifacts.zip")`. -/
def zipPathOf (outDir buildID : Str) : Str :=
  Join outDir ("build-".toList ++ buildID ++ "-artifacts.zip".toList)

/-- The extraction directory: `filepath.Join(outDir, "build-<id>")`. -/
def extractDirOf (outDir buildID : Str) : Str :=
  Join outDir ("build-".toList ++ buildID)

/-- The output directory of `run`: the second argument, `.` when there is none. -/
def outDirOf (more : List Str) : Str :=
  match more with
  | [] => ['.']
  | o :: _ => o

/-- What `run` leaves behind: its error, the file system, and the number of files it
reports in `Extracted %d files to %s` when it gets there. -/
structure RunResult where
  err : Option Err
  fs : FS
  count : Option Nat

/-- The function `run(args)` of `main.go`, with the environment (`tokenEnv` and
`urlEnv` are the values of `TEAMCITY_TOKEN` and `TEAMCITY_URL`, empty when unset), the
network and the archive decoder as parameters. -/
def run (tokenEnv urlEnv : Str) (net : Net) (unzip : Str → Except Err (List File))
    (cwd : Loc) (args : List Str) (fs : FS) : RunResult :=
  match args with
  | [] => ⟨some Err.usage, fs, none⟩
  | buildID :: more =>
    let outDir := outDirOf more
    if tokenEnv = [] then ⟨some Err.noToken, fs, none⟩
    else
      let url := artifactsURL urlEnv buildID
      let zipPath := zipPathOf outDir buildID
      match download net cwd url tokenEnv zipPath fs with
      | ⟨some e, fs1⟩ => ⟨some (Err.wrap "download failed".toList e), fs1, none⟩
      | ⟨none, fs1⟩ =>
        let extractDir := extractDirOf outDir buildID
        match extractZip cwd (OpenReader unzip cwd zipPath fs1) extractDir fs1 with
        | ⟨some e, fs2⟩ => ⟨some (Err.wrap "extraction failed".toList e), fs2, none⟩
        | ⟨none, fs2⟩ =>
          -- a failure of os.Remove is only a warning
          let fs3 := (Remove cwd zipPath fs2).fs
          ⟨none, fs3, some (walkCount cwd extractDir fs3)⟩

/-! ## Terms of the specification -/

/-- An ordinary path segment: not empty, not `.`, not `..`, without a separator. -/
def isOrdinary (e : Str) : Bool :=
  decide (e ≠ []) && decide (e ≠ ['.']) && decide (e ≠ dotdot) && decide (sep ∉ e)

/-- The normalized component sequence of a path: the elements `filepath.Clean`
keeps for it. -/
def components (path : Str) : List Str := cleanElems path

/-- The components a path has beyond those of the destination directory. -/
def beyond (destDir path : Str) : List Str :=
  (components path).drop (components destDir).length

/-- The path does not leave the destination directory: both are rooted or both are
not, the components of the path begin with those of the directory, and no further
component is a parent segment.  The directory itself is within. -/
def within (destDir path : Str) : Bool :=
  (isRooted path == isRooted destDir) &&
  (components destDir).isPrefixOf (components path) &&
  (beyond destDir path).all (fun e => decide (e ≠ dotdot))

/-- Lexical containment: within the destination directory and at least one component
below it. -/
def lexicallyInside (destDir path : Str) : Bool :=
  within destDir path && decide (beyond destDir path ≠ [])

/-- The test of `extractZipFile` on the joined path: whether it begins with the
cleaned destination directory followed by a separator. -/
def passesCheck (destDir name : Str) : Bool :=
  HasPrefix (Join destDir name) (Clean destDir ++ [sep])

/-- Whether the destination directory, normalized, ends in a parent segment (it is
then a chain of parent segments such as `..` or `../..`). -/
def endsInParent (destDir : Str) : Bool :=
  (components destDir).getLast? = some dotdot

/-- The location at which an entry is written: where its joined path resolves. -/
def destLoc (cwd : Loc) (destDir : Str) (f : File) : Loc :=
  resolve cwd (Join destDir f.Name)

/-- The number of non-directory entries of an archive. -/
def fileCount (files : List File) : Nat :=
  (files.filter (fun f => !f.IsDir)).length

/-- The locations at which the non-directory entries of an archive are written. -/
def fileLocs (cwd : Loc) (destDir : Str) (files : List File) : List Loc :=
  (files.filter (fun f => !f.IsDir)).map (destLoc cwd destDir)

/-- Whether an error is an I/O error: the error of a file-system call or of reading
the archive. -/
def Err.isIO : Err → Bool
  | Err.os _ _ _ => true
  | Err.lib _ => true
  | _ => false

/-- Whether a call ended with an I/O error. -/
def Outcome.ioError (o : Outcome) : Bool :=
  match o.err with
  | some e => e.isIO
  | none => false

/-- The string neither begins nor ends with white space: its first rune and its last
rune are not white space (the empty string included). -/
def noSurroundingSpace (s : Str) : Bool :=
  !IsSpace (DecodeRuneInString s).1 && !IsSpace (DecodeLastRuneInString s).1

/-! ## Notions used in the proofs -/

/-- What a kept element of a cleaned path looks like. -/
def Elem (e : Str) : Prop := e ≠ [] ∧ e ≠ ['.'] ∧ sep ∉ e

/-- The shape of the elements of a cleaned path: `..` only at the front of a
non-rooted path, each one after another `..`. -/
def Normal (rooted : Bool) (out : List Str) : Prop :=
  (∀ e ∈ out, Elem e) ∧ (rooted = true → dotdot ∉ out) ∧
  out.Chain' (fun a b => b = dotdot → a = dotdot)

/-- The elements of the joined path: those of the directory, continued over the
elements of the name. -/
def joinElems (destDir name : Str) : List Str :=
  (splitSep name).foldl (cleanStep (isRooted destDir)) (cleanElems destDir)

/-- In going from `fs` to `fs'` no node is lost or changes its kind: a directory stays
a directory and a regular file stays a regular file. -/
def Grows (fs fs' : FS) : Prop :=
  ∀ q, (fs.lookup q = some Node.dir → fs'.lookup q = some Node.dir) ∧
    (∀ c, fs.lookup q = some (Node.file c) → ∃ c', fs'.lookup q = some (Node.file c'))

/-- In going from `fs` to `fs'` the only change is that directories were created where
nothing was. -/
def DirsAdded (fs fs' : FS) : Prop :=
  ∀ q, fs'.lookup q = fs.lookup q ∨ (fs.lookup q = none ∧ fs'.lookup q = some Node.dir)

/-! ## Sample inputs -/

/-- The entry `a.txt` with content `hello`. -/
def entryA : File := ⟨"a.txt".toList, false, Payload.data "hello".toList⟩

/-- The entry `sub/b.txt` with content `world`. -/
def entryB : File := ⟨"sub/b.txt".toList, false, Payload.data "world".toList⟩

/-- The directory entry `sub/empty/`. -/
def entryEmpty : File := ⟨"sub/empty/".toList, false, Payload.data []⟩

/-- The destination directory `out`. -/
def outDir : Str := "out".toList

/-- A server that answers every request with status 404 and the body `not found`. -/
def netNotFound : Net := fun _ _ => Except.ok ⟨404, "not found".toList, none⟩

/-- A server that answers every request with status 201 and the body `ZIP`. -/
def netCreated : Net := fun _ _ => Except.ok ⟨201, "ZIP".toList, none⟩

/-- A server that answers every request with status 200 and the body `ZIP`. -/
def netOK : Net := fun _ _ => Except.ok ⟨200, "ZIP".toList, none⟩

/-- The archive path `out/build-1-artifacts.zip`. -/
def zipSample : Str := "out/build-1-artifacts.zip".toList

/-- A decoder that reads every file as the sample archive `a.txt`, `sub/b.txt`,
`sub/empty/`. -/
def unzipSample : Str → Except Err (List File) :=
  fun _ => Except.ok [entryA, entryB, entryEmpty]

/-- A decoder that reads every file as an archive with two entries named `a.txt`. -/
def unzipTwice : Str → Except Err (List File) :=
  fun _ => Except.ok [entryA, entryA]

/-- A decoder that reads every file as the archive with the one entry `a.txt`. -/
def unzipOne : Str → Except Err (List File) :=
  fun _ => Except.ok [entryA]

/-- A file system in which `out/build-1/old.txt` exists. -/
def fsOld : FS :=
  (((∅ : FS).insert ["out".toList] Node.dir).insert
    ["out".toList, "build-1".toList] Node.dir).insert
    ["out".toList, "build-1".toList, "old.txt".toList] (Node.file "old".toList)

/-- The arguments `1 out` of `run`. -/
def argsSample : List Str := ["1".toList, "out".toList]

/-- The entry `../a` with content `x`. -/
def entrySlip : File := ⟨"../a".toList, false, Payload.data "x".toList⟩

/-- A decoder that reads every file as the archive with the one entry `../a`. -/
def unzipSlip : Str → Except Err (List File) :=
  fun _ => Except.ok [entrySlip]

/-- The working directory `/h/u`. -/
def cwdSample : Loc := ["h".toList, "u".toList]

/-! ## Lemmas on paths -/

/-- The model of `filepath.Clean` on the rows of the test table `cleantests` of
package `path/filepath` (Unix rows). -/
theorem Clean_on_cleantests :
    (["abc", "abc/def", "a/b/c", ".", "..", "../..", "../../abc", "/abc", "/", "",
      "abc/", "abc/def/", "a/b/c/", "./", "../", "../../", "/abc/",
      "abc//def//ghi", "abc//", "abc/./def", "/./abc/def", "abc/.",
      "abc/def/ghi/../jkl", "abc/def/../ghi/../jkl", "abc/def/..", "abc/def/../..",
      "/abc/def/../..", "abc/def/../../..", "/abc/def/../../..",
      "abc/def/../../../ghi/jkl/../../../mno", "/../abc", "a/../b:/../../c",
      "abc/./../def", "abc//./../def", "abc/../../././../def",
      "//abc", "///abc", "//abc//"].map (fun s => Clean s.toList)) =
    (["abc", "abc/def", "a/b/c", ".", "..", "../..", "../../abc", "/abc", "/", ".",
      "abc", "abc/def", "a/b/c", ".", "..", "../..", "/abc",
      "abc/def/ghi", "abc", "abc/def", "/abc/def", "abc",
      "abc/def/jkl", "abc/jkl", "abc", ".",
      "/", "..", "/",
      "../../mno", "/abc", "../c",
      "def", "def", "../../def",
      "/abc", "/abc", "/abc"].map String.toList) := by
  decide

/-- The model of `filepath.Join` and `filepath.Dir` on rows of the test tables
`jointests` and `dirtests` of package `path/filepath`. -/
theorem Join_Dir_on_tests :
    Join "a".toList "b".toList = "a/b".toList ∧
    Join "a".toList [] = "a".toList ∧
    Join [] "b".toList = "b".toList ∧
    Join "/".toList "a".toList = "/a".toList ∧
    Join "/".toList [] = "/".toList ∧
    Join "a/".toList "b".toList = "a/b".toList ∧
    Join "a/".toList [] = "a".toList ∧
    Join [] [] = [] ∧
    Dir [] = ".".toList ∧
    Dir ".".toList = ".".toList ∧
    Dir "/.".toList = "/".toList ∧
    Dir "/".toList = "/".toList ∧
    Dir "/foo".toList = "/".toList ∧
    Dir "x/".toList = "x".toList ∧
    Dir "abc".toList = ".".toList ∧
    Dir "abc/def".toList = "abc".toList ∧
    Dir "a/b/.x".toList = "a/b".toList ∧
    Dir "a/b/c.".toList = "a/b".toList := by
  decide

theorem splitSep_ne_nil (s : Str) : splitSep s ≠ [] := by
  cases s with
  | nil => simp [splitSep]
  | cons c cs =>
    unfold splitSep
    split
    · simp
    · split <;> simp

theorem splitSep_append_sep (a b : Str) :
    splitSep (a ++ sep :: b) = splitSep a ++ splitSep b := by
  induction a with
  | nil => simp [splitSep]
  | cons c cs ih =>
    by_cases hc : c = sep
    · simp [splitSep, hc, ih]
    · have h1 := splitSep_ne_nil cs
      cases hs : splitSep cs with
      | nil => exact absurd hs h1
      | cons w ws =>
        simp [splitSep, hc, ih, hs]

theorem splitSep_noSep (s : Str) : ∀ e ∈ splitSep s, sep ∉ e := by
  induction s with
  | nil => simp [splitSep]
  | cons c cs ih =>
    by_cases hc : c = sep
    · simp only [splitSep, hc, if_true]
      intro e he
      rcases List.mem_cons.1 he with h | h
      · simp [h]
      · exact ih e h
    · cases hs : splitSep cs with
      | nil => exact absurd hs (splitSep_ne_nil cs)
      | cons w ws =>
        simp only [splitSep, hc, if_false, hs]
        rw [hs] at ih
        intro e he
        rcases List.mem_cons.1 he with h | h
        · subst h
          have := ih w (List.mem_cons_self _ _)
          simp only [List.mem_cons, not_or]
          exact ⟨fun h => hc h.symm, this⟩
        · exact ih e (List.mem_cons_of_mem _ h)

theorem splitSep_of_noSep (e : Str) (h : sep ∉ e) : splitSep e = [e] := by
  induction e with
  | nil => simp [splitSep]
  | cons c cs ih =>
    simp only [List.mem_cons, not_or] at h
    have hc : c ≠ sep := fun h' => h.1 h'.symm
    simp [splitSep, hc, ih h.2]

theorem splitSep_joinSep (es : List Str) (hne : es ≠ []) (h : ∀ e ∈ es, sep ∉ e) :
    splitSep (joinSep es) = es := by
  induction es with
  | nil => exact absurd rfl hne
  | cons e rest ih =>
    cases rest with
    | nil => simpa [joinSep] using splitSep_of_noSep e (h e (List.mem_cons_self _ _))
    | cons e' es' =>
      simp only [joinSep]
      rw [splitSep_append_sep, splitSep_of_noSep e (h e (List.mem_cons_self _ _)),
        ih (by simp) (fun x hx => h x (List.mem_cons_of_mem _ hx))]
      rfl

theorem dotdot_elem : Elem dotdot := by
  refine ⟨by decide, by decide, by decide⟩

theorem canBacktrack_concat (out : List Str) (e : Str) :
    canBacktrack (out ++ [e]) = decide (e ≠ dotdot) := by
  simp [canBacktrack, List.getLast?_concat]

theorem normal_nil (r : Bool) : Normal r [] :=
  ⟨by simp, by simp, List.chain'_nil⟩

theorem Normal.dropLast {r : Bool} {out : List Str} (h : Normal r out) :
    Normal r out.dropLast :=
  ⟨fun e he => h.1 e (List.mem_of_mem_dropLast he),
   fun hr hm => h.2.1 hr (List.mem_of_mem_dropLast hm),
   h.2.2.init⟩

theorem Normal.concat {r : Bool} {out : List Str} {e : Str} (h : Normal r out)
    (he : Elem e) (hr : r = true → e ≠ dotdot)
    (hl : e = dotdot → ∀ l ∈ out.getLast?, l = dotdot) : Normal r (out ++ [e]) := by
  refine ⟨?_, ?_, ?_⟩
  · intro x hx
    rcases List.mem_append.1 hx with h1 | h1
    · exact h.1 x h1
    · simp only [List.mem_singleton] at h1; subst h1; exact he
  · intro hr' hm
    rcases List.mem_append.1 hm with h1 | h1
    · exact h.2.1 hr' h1
    · simp only [List.mem_singleton] at h1; exact hr hr' h1.symm
  · rw [List.chain'_append]
    refine ⟨h.2.2, List.chain'_singleton _, ?_⟩
    intro x hx y hy
    simp only [List.head?_cons, Option.mem_def, Option.some.injEq] at hy
    subst hy
    intro hd
    exact hl hd x hx

theorem cleanStep_normal {r : Bool} {out : List Str} {e : Str} (h : Normal r out)
    (he : sep ∉ e) : Normal r (cleanStep r out e) := by
  unfold cleanStep
  split
  · exact h
  · split
    · exact h
    · split
      · rename_i hdd
        split
        · exact h.dropLast
        · rename_i hcb
          split
          · rename_i hr
            refine h.concat dotdot_elem ?_ ?_
            · intro hr'; simp [hr'] at hr
            · intro _ l hl
              by_contra hne
              apply hcb
              simp only [Option.mem_def] at hl
              simp [canBacktrack, hl, hne]
          · exact h
      · rename_i h1 h2 h3
        exact h.concat ⟨h1, h2, he⟩ (fun _ => h3) (fun h' => absurd h' h3)

theorem foldl_cleanStep_normal {r : Bool} (l : List Str) (hl : ∀ e ∈ l, sep ∉ e) :
    ∀ acc, Normal r acc → Normal r (l.foldl (cleanStep r) acc) := by
  induction l with
  | nil => intro acc h; exact h
  | cons e es ih =>
    intro acc h
    simp only [List.foldl_cons]
    exact ih (fun x hx => hl x (List.mem_cons_of_mem _ hx)) _
      (cleanStep_normal h (hl e (List.mem_cons_self _ _)))

theorem cleanElems_normal (p : Str) : Normal (isRooted p) (cleanElems p) :=
  foldl_cleanStep_normal _ (splitSep_noSep p) _ (normal_nil _)

theorem isRooted_append (a x : Str) (ha : a ≠ []) : isRooted (a ++ x) = isRooted a := by
  cases a with
  | nil => exact absurd rfl ha
  | cons c cs => simp [isRooted]

/-- The elements kept for `a/b` are those kept for `a`, continued over the elements
of `b`. -/
theorem cleanElems_append_sep (a b : Str) (ha : a ≠ []) :
    cleanElems (a ++ sep :: b) =
      (splitSep b).foldl (cleanStep (isRooted a)) (cleanElems a) := by
  simp [cleanElems, isRooted_append a _ ha, splitSep_append_sep, List.foldl_append]

theorem Clean_of_ne_nil (a : Str) (ha : a ≠ []) :
    Clean a = render (isRooted a) (cleanElems a) := by
  simp [Clean, ha]

theorem Join_of_ne_nil (a b : Str) (ha : a ≠ []) :
    Join a b = render (isRooted a)
      ((splitSep b).foldl (cleanStep (isRooted a)) (cleanElems a)) := by
  have h : a ++ sep :: b ≠ [] := by simp
  simp only [Join, ha, ne_eq, not_false_eq_true, if_true]
  rw [Clean_of_ne_nil _ h, isRooted_append a _ ha, cleanElems_append_sep a b ha]

/-- Two separator-free elements that begin the same text up to a separator are
equal, and the texts after the separator are again in the prefix relation. -/
theorem prefix_sep_split (d j X Y : Str) (hd : sep ∉ d) (hj : sep ∉ j)
    (h : d ++ sep :: X <+: j ++ sep :: Y) : d = j ∧ X <+: Y := by
  induction d generalizing j with
  | nil =>
    cases j with
    | nil =>
      simp only [List.nil_append] at h
      exact ⟨rfl, (List.cons_prefix_cons.1 h).2⟩
    | cons c cs =>
      simp only [List.nil_append, List.cons_append] at h
      have := (List.cons_prefix_cons.1 h).1
      simp only [List.mem_cons, not_or] at hj
      exact absurd this hj.1
  | cons c cs ih =>
    cases j with
    | nil =>
      simp only [List.nil_append, List.cons_append] at h
      have := (List.cons_prefix_cons.1 h).1
      simp only [List.mem_cons, not_or] at hd
      exact absurd this.symm hd.1
    | cons c' cs' =>
      simp only [List.cons_append] at h
      have h' := List.cons_prefix_cons.1 h
      simp only [List.mem_cons, not_or] at hd hj
      have := ih cs' hd.2 hj.2 h'.2
      exact ⟨by rw [h'.1, this.1], this.2⟩

theorem not_prefix_sep_of_noSep (d j X : Str) (hj : sep ∉ j) : ¬ d ++ sep :: X <+: j := by
  intro h
  apply hj
  obtain ⟨t, ht⟩ := h
  rw [← ht]
  simp

/-- The text of `D` followed by a separator begins the text of `J` only when `J`
has the elements of `D` and then at least one more. -/
theorem joinSep_begins (D J : List Str) (hD : D ≠ []) (hDs : ∀ e ∈ D, sep ∉ e)
    (hJs : ∀ e ∈ J, sep ∉ e) (h : joinSep D ++ [sep] <+: joinSep J) :
    ∃ rest, rest ≠ [] ∧ J = D ++ rest := by
  induction D generalizing J with
  | nil => exact absurd rfl hD
  | cons d Ds ih =>
    have hd := hDs d (List.mem_cons_self _ _)
    cases J with
    | nil =>
      cases Ds <;> simp [joinSep] at h
    | cons j Js =>
      have hj := hJs j (List.mem_cons_self _ _)
      cases Js with
      | nil =>
        cases Ds with
        | nil =>
          simp only [joinSep] at h
          exact absurd h (not_prefix_sep_of_noSep d j [] hj)
        | cons d' Ds' =>
          simp only [joinSep, List.append_assoc, List.cons_append] at h
          exact absurd h (not_prefix_sep_of_noSep d j _ hj)
      | cons j' Js' =>
        cases Ds with
        | nil =>
          simp only [joinSep] at h
          have := prefix_sep_split d j [] _ hd hj h
          exact ⟨j' :: Js', by simp, by rw [this.1]; rfl⟩
        | cons d' Ds' =>
          simp only [joinSep, List.append_assoc, List.cons_append] at h
          have h2 := prefix_sep_split d j _ _ hd hj h
          have h3 : joinSep (d' :: Ds') ++ [sep] <+: joinSep (j' :: Js') := by
            simpa [joinSep] using h2.2
          obtain ⟨rest, hr, hJ⟩ := ih (j' :: Js') (by simp)
            (fun e he => hDs e (List.mem_cons_of_mem _ he))
            (fun e he => hJs e (List.mem_cons_of_mem _ he)) h3
          exact ⟨rest, hr, by rw [h2.1, hJ]; rfl⟩

theorem joinSep_append (D R : List Str) (hD : D ≠ []) (hR : R ≠ []) :
    joinSep (D ++ R) = joinSep D ++ sep :: joinSep R := by
  induction D with
  | nil => exact absurd rfl hD
  | cons d Ds ih =>
    cases Ds with
    | nil =>
      cases R with
      | nil => exact absurd rfl hR
      | cons r Rs => simp [joinSep]
    | cons d' Ds' =>
      have := ih (by simp)
      simp only [List.cons_append] at this ⊢
      simp [joinSep, this]

theorem joinSep_head (j : Str) (Js : List Str) (hj : j ≠ []) :
    ∃ c t, j = c :: (j.tail) ∧ joinSep (j :: Js) = c :: t := by
  cases j with
  | nil => exact absurd rfl hj
  | cons c cs =>
    cases Js with
    | nil => exact ⟨c, cs, rfl, rfl⟩
    | cons j' Js' => exact ⟨c, cs ++ sep :: joinSep (j' :: Js'), rfl, rfl⟩

theorem joinSep_ne_nil (D : List Str) (hD : D ≠ []) (hDe : ∀ e ∈ D, Elem e) :
    joinSep D ≠ [] := by
  cases D with
  | nil => exact absurd rfl hD
  | cons d Ds =>
    obtain ⟨c, t, _, h⟩ := joinSep_head d Ds (hDe d (List.mem_cons_self _ _)).1
    rw [h]; simp

/-- No cleaned rooted path begins with two separators. -/
theorem not_sep_prefix_joinSep (J : List Str) (hJ : ∀ e ∈ J, Elem e) :
    ¬ [sep] <+: joinSep J := by
  intro h
  cases J with
  | nil => simp [joinSep] at h
  | cons j Js =>
    have hj := hJ j (List.mem_cons_self _ _)
    obtain ⟨c, t, hc, ht⟩ := joinSep_head j Js hj.1
    rw [ht] at h
    have := (List.cons_prefix_cons.1 h).1
    apply hj.2.2
    rw [hc, this]
    simp

/-- No cleaned non-rooted path begins with `./`. -/
theorem not_dot_prefix_render (J : List Str) (hJ : ∀ e ∈ J, Elem e) :
    ¬ ['.', sep] <+: render false J := by
  intro h
  cases J with
  | nil =>
    have := h.length_le
    simp [render] at this
  | cons j Js =>
    have hj := hJ j (List.mem_cons_self _ _)
    have h' : ['.'] ++ sep :: [] <+: joinSep (j :: Js) := by
      simpa [render] using h
    cases Js with
    | nil =>
      simp only [joinSep] at h'
      exact not_prefix_sep_of_noSep _ _ _ hj.2.2 h'
    | cons j' Js' =>
      simp only [joinSep] at h'
      have := prefix_sep_split ['.'] j [] _ (by decide) hj.2.2 h'
      exact hj.2.1 this.1.symm

/-- Soundness of the prefix test on cleaned paths: when it passes, the directory has
at least one element and the path has these elements followed by at least one more. -/
theorem render_prefix_sound (r : Bool) (D J : List Str) (hD : ∀ e ∈ D, Elem e)
    (hJ : ∀ e ∈ J, Elem e)
    (h : HasPrefix (render r J) (render r D ++ [sep]) = true) :
    D ≠ [] ∧ ∃ rest, rest ≠ [] ∧ J = D ++ rest := by
  have h' : render r D ++ [sep] <+: render r J := by
    simpa [HasPrefix] using h
  cases r with
  | true =>
    simp only [render, if_true, List.cons_append] at h'
    have h2 := (List.cons_prefix_cons.1 h').2
    by_cases hD0 : D = []
    · subst hD0
      simp only [joinSep, List.nil_append] at h2
      exact absurd h2 (not_sep_prefix_joinSep J hJ)
    · exact ⟨hD0, joinSep_begins D J hD0 (fun e he => (hD e he).2.2)
        (fun e he => (hJ e he).2.2) h2⟩
  | false =>
    by_cases hD0 : D = []
    · subst hD0
      have : ['.', sep] <+: render false J := by simpa [render] using h'
      exact absurd this (not_dot_prefix_render J hJ)
    · refine ⟨hD0, ?_⟩
      by_cases hJ0 : J = []
      · subst hJ0
        have hne := joinSep_ne_nil D hD0 hD
        have hpos : 0 < (joinSep D).length := List.length_pos.2 hne
        have e1 : render false D = joinSep D := by simp [render, hD0]
        have e2 : render false ([] : List Str) = ['.'] := rfl
        rw [e1, e2] at h'
        have hl := h'.length_le
        simp only [List.length_append, List.length_singleton] at hl
        omega
      · have h2 : joinSep D ++ [sep] <+: joinSep J := by
          simpa [render, hD0, hJ0] using h'
        exact joinSep_begins D J hD0 (fun e he => (hD e he).2.2)
          (fun e he => (hJ e he).2.2) h2

/-- Completeness of the prefix test on cleaned paths. -/
theorem render_prefix_complete (r : Bool) (D R : List Str) (hD : D ≠ []) (hR : R ≠ []) :
    HasPrefix (render r (D ++ R)) (render r D ++ [sep]) = true := by
  have hDR : D ++ R ≠ [] := by simp [hD]
  have : render r D ++ [sep] <+: render r (D ++ R) := by
    cases r with
    | true =>
      simp only [render, if_true, List.cons_append]
      rw [joinSep_append D R hD hR]
      exact List.cons_prefix_cons.2 ⟨rfl, ⟨joinSep R, by simp⟩⟩
    | false =>
      simp only [render, hD, hDR, if_false, Bool.false_eq_true]
      rw [joinSep_append D R hD hR]
      exact ⟨joinSep R, by simp⟩
  simpa [HasPrefix] using this

theorem isOrdinary_iff (e : Str) :
    isOrdinary e = true ↔ e ≠ [] ∧ e ≠ ['.'] ∧ e ≠ dotdot ∧ sep ∉ e := by
  simp [isOrdinary, and_assoc]

theorem cleanStep_ordinary (r : Bool) (out : List Str) (e : Str) (he : isOrdinary e = true) :
    cleanStep r out e = out ++ [e] := by
  obtain ⟨h1, h2, h3, _⟩ := (isOrdinary_iff e).1 he
  simp [cleanStep, h1, h2, h3]

/-- Ordinary segments are appended as they are. -/
theorem foldl_cleanStep_ordinary (r : Bool) (segs : List Str)
    (h : ∀ e ∈ segs, isOrdinary e = true) :
    ∀ acc, segs.foldl (cleanStep r) acc = acc ++ segs := by
  induction segs with
  | nil => intro acc; simp
  | cons e es ih =>
    intro acc
    simp only [List.foldl_cons]
    rw [cleanStep_ordinary r acc e (h e (List.mem_cons_self _ _)),
      ih (fun x hx => h x (List.mem_cons_of_mem _ hx))]
    simp

/-- Cleaning leaves elements in normal form as they are. -/
theorem foldl_cleanStep_self (r : Bool) (out : List Str) :
    ∀ acc, Normal r (acc ++ out) → out.foldl (cleanStep r) acc = acc ++ out := by
  induction out with
  | nil => intro acc _; simp
  | cons e es ih =>
    intro acc h
    have he : Elem e := h.1 e (by simp)
    have hstep : cleanStep r acc e = acc ++ [e] := by
      by_cases hd : e = dotdot
      · subst hd
        have hr : r = false := by
          cases r with
          | false => rfl
          | true => exact absurd (by simp) (h.2.1 rfl)
        have hc : canBacktrack acc = false := by
          have hch := (List.chain'_split.1 h.2.2).1
          rw [List.chain'_append] at hch
          have := hch.2.2
          cases hl : acc.getLast? with
          | none => simp [canBacktrack, hl]
          | some l =>
            have hl' := this l (by simp [hl]) dotdot (by simp) rfl
            simp [canBacktrack, hl, hl']
        have h1 : dotdot ≠ ([] : Str) := by decide
        have h2 : dotdot ≠ ['.'] := by decide
        simp [cleanStep, h1, h2, hc, hr]
      · simp [cleanStep, he.1, he.2.1, hd]
    simp only [List.foldl_cons]
    rw [hstep, ih (acc ++ [e]) (by simpa using h)]
    simp

theorem isRooted_render (r : Bool) (out : List Str) (h : ∀ e ∈ out, Elem e) :
    isRooted (render r out) = r := by
  cases r with
  | true => simp [render, isRooted]
  | false =>
    cases out with
    | nil => simp [render, isRooted, sep]
    | cons j Js =>
      have hj := h j (List.mem_cons_self _ _)
      obtain ⟨c, t, hc, ht⟩ := joinSep_head j Js hj.1
      have hcs : c ≠ sep := by
        intro hcs
        apply hj.2.2
        rw [hc, hcs]; simp
      simp [render, isRooted, ht, hcs]

/-- The elements of a cleaned path are the elements it was written from. -/
theorem cleanElems_render (r : Bool) (out : List Str) (h : Normal r out) :
    cleanElems (render r out) = out := by
  unfold cleanElems
  rw [isRooted_render r out h.1]
  by_cases h0 : out = []
  · subst h0
    cases r <;> simp [render, splitSep, cleanStep, sep]
  · have hs : splitSep (joinSep out) = out :=
      splitSep_joinSep out h0 (fun e he => (h.1 e he).2.2)
    have hf := foldl_cleanStep_self r out [] (by simpa using h)
    cases r with
    | true =>
      simp only [render, if_true, splitSep, List.foldl_cons, hs]
      simpa [cleanStep] using hf
    | false =>
      simp only [render, h0, if_false, Bool.false_eq_true, hs]
      simpa using hf

theorem components_Clean (p : Str) : components (Clean p) = components p := by
  unfold components
  by_cases hp : p = []
  · subst hp
    decide
  · rw [Clean_of_ne_nil p hp]
    exact cleanElems_render _ _ (cleanElems_normal p)

theorem isRooted_Clean (p : Str) : isRooted (Clean p) = isRooted p := by
  by_cases hp : p = []
  · subst hp
    simp [Clean, isRooted, sep]
  · rw [Clean_of_ne_nil p hp]
    exact isRooted_render _ _ (cleanElems_normal p).1

theorem joinElems_normal (d n : Str) : Normal (isRooted d) (joinElems d n) :=
  foldl_cleanStep_normal _ (splitSep_noSep n) _ (cleanElems_normal d)

theorem components_Join (d n : Str) (hd : d ≠ []) :
    components (Join d n) = joinElems d n := by
  unfold components
  rw [Join_of_ne_nil d n hd]
  exact cleanElems_render _ _ (joinElems_normal d n)

theorem isRooted_Join (d n : Str) (hd : d ≠ []) : isRooted (Join d n) = isRooted d := by
  rw [Join_of_ne_nil d n hd]
  exact isRooted_render _ _ (joinElems_normal d n).1

theorem joinSep_splitSep (s : Str) : joinSep (splitSep s) = s := by
  induction s with
  | nil => rfl
  | cons c cs ih =>
    cases hs : splitSep cs with
    | nil => exact absurd hs (splitSep_ne_nil cs)
    | cons w ws =>
      rw [hs] at ih
      by_cases hc : c = sep
      · simp [splitSep, hc, hs, joinSep, ih]
      · simp only [splitSep, hc, if_false, hs]
        cases ws with
        | nil =>
          simp only [joinSep] at ih ⊢
          rw [ih]
        | cons w' ws' =>
          simp only [joinSep] at ih ⊢
          rw [← ih]; simp

theorem cleanElems_nil : cleanElems [] = [] := by decide

theorem ne_nil_of_cleanElems_ne_nil (d : Str) (h : cleanElems d ≠ []) : d ≠ [] := by
  intro hd
  subst hd
  exact h cleanElems_nil

/-- Nothing passes the test of `extractZipFile` when the destination directory is the
empty string. -/
theorem passesCheck_nil (n : Str) : passesCheck [] n = false := by
  by_cases hn : n = []
  · subst hn; decide
  · have hJ : Join [] n = render (isRooted n) (cleanElems n) := by
      simp [Join, hn, Clean]
    cases hp : passesCheck [] n with
    | false => rfl
    | true =>
      exfalso
      have h1 : ['.', sep] <+: render (isRooted n) (cleanElems n) := by
        have : HasPrefix (Join [] n) (Clean [] ++ [sep]) = true := hp
        rw [hJ] at this
        simpa [HasPrefix, Clean] using this
      cases hr : isRooted n with
      | false =>
        rw [hr] at h1
        exact not_dot_prefix_render _ (cleanElems_normal n).1 h1
      | true =>
        rw [hr] at h1
        simp only [render, if_true] at h1
        have := (List.cons_prefix_cons.1 h1).1
        exact absurd this (by decide)

/-- Soundness of the test on paths: a name that passes has, after the elements of a
non-empty destination directory, at least one more element. -/
theorem passesCheck_sound (d n : Str) (h : passesCheck d n = true) :
    d ≠ [] ∧ components d ≠ [] ∧ ∃ rest, rest ≠ [] ∧ joinElems d n = components d ++ rest := by
  have hd : d ≠ [] := by
    intro hd
    subst hd
    rw [passesCheck_nil] at h
    exact Bool.false_ne_true h
  have h' : HasPrefix (render (isRooted d) (joinElems d n))
      (render (isRooted d) (cleanElems d) ++ [sep]) = true := by
    have : HasPrefix (Join d n) (Clean d ++ [sep]) = true := h
    rwa [Join_of_ne_nil d n hd, Clean_of_ne_nil d hd] at this
  have := render_prefix_sound _ _ _ (cleanElems_normal d).1 (joinElems_normal d n).1 h'
  exact ⟨hd, this.1, this.2⟩

/-- After an element that is not `..`, a normal form has no `..`. -/
theorem no_dotdot_after (D rest : List Str) (l : Str) (hl : D.getLast? = some l)
    (hne : l ≠ dotdot) (hc : (D ++ rest).Chain' (fun a b => b = dotdot → a = dotdot)) :
    ∀ e ∈ rest, e ≠ dotdot := by
  induction rest generalizing D l with
  | nil => simp
  | cons x xs ih =>
    have h1 := (List.chain'_split.1 hc).1
    rw [List.chain'_append] at h1
    have hx : x ≠ dotdot := fun hx => hne (h1.2.2 l (by simp [hl]) x (by simp) hx)
    intro e he
    rcases List.mem_cons.1 he with h | h
    · rw [h]; exact hx
    · exact ih (D ++ [x]) x (List.getLast?_concat _) hx (by simpa using hc) e h

theorem canBacktrack_of_not_endsInParent (d : Str) (h0 : components d ≠ [])
    (h : endsInParent d = false) :
    ∃ l, (components d).getLast? = some l ∧ l ≠ dotdot := by
  cases hl : (components d).getLast? with
  | none => exact absurd (List.getLast?_eq_none_iff.1 hl) h0
  | some l =>
    refine ⟨l, rfl, ?_⟩
    intro hl'
    simp [endsInParent, hl, hl'] at h

/-- A name that passes the test stays lexically inside a destination directory that
does not end in a parent segment. -/
theorem passesCheck_inside (d n : Str) (hp : endsInParent d = false)
    (h : passesCheck d n = true) : lexicallyInside d (Join d n) = true := by
  obtain ⟨hd, h0, rest, hr, hJ⟩ := passesCheck_sound d n h
  obtain ⟨l, hl, hne⟩ := canBacktrack_of_not_endsInParent d h0 hp
  have hc := (joinElems_normal d n).2.2
  rw [hJ] at hc
  have hrest := no_dotdot_after _ rest l hl hne hc
  have hb : beyond d (Join d n) = rest := by
    simp [beyond, components_Join d n hd, hJ]
  simp only [lexicallyInside, within, Bool.and_eq_true, beq_iff_eq, decide_eq_true_eq,
    List.all_eq_true, hb]
  refine ⟨⟨⟨isRooted_Join d n hd, ?_⟩, fun e he => hrest e he⟩, hr⟩
  rw [components_Join d n hd, hJ]
  simp

/-- A name whose joined path is not within the destination directory is rejected,
when the directory does not end in a parent segment. -/
theorem rejected_of_not_within (d n : Str) (hp : endsInParent d = false)
    (h : within d (Join d n) = false) : passesCheck d n = false := by
  cases hc : passesCheck d n with
  | false => rfl
  | true =>
    have := passesCheck_inside d n hp hc
    simp [lexicallyInside, h] at this

theorem render_append (r : Bool) (D R : List Str) (hD : D ≠ []) (hR : R ≠ []) :
    render r (D ++ R) = render r D ++ sep :: joinSep R := by
  have hDR : D ++ R ≠ [] := by simp [hD]
  cases r with
  | true => simp [render, joinSep_append D R hD hR]
  | false => simp [render, hD, hDR, joinSep_append D R hD hR]

theorem joinElems_benign (d n : Str) (hn : (splitSep n).all isOrdinary = true) :
    joinElems d n = components d ++ splitSep n := by
  unfold joinElems components
  exact foldl_cleanStep_ordinary _ _ (fun e he => List.all_eq_true.1 hn e he) _

/-- Completeness of the test for benign names: below a destination directory with at
least one element, a name made of ordinary segments passes, and the joined path is the
cleaned directory, a separator and the name. -/
theorem passesCheck_benign (d n : Str) (h0 : components d ≠ [])
    (hn : (splitSep n).all isOrdinary = true) :
    passesCheck d n = true ∧ Join d n = Clean d ++ sep :: n := by
  have hd := ne_nil_of_cleanElems_ne_nil d h0
  have hs := splitSep_ne_nil n
  have hJ : Join d n = render (isRooted d) (components d ++ splitSep n) := by
    rw [Join_of_ne_nil d n hd]
    exact congrArg _ (joinElems_benign d n hn)
  have hC : Clean d = render (isRooted d) (components d) := Clean_of_ne_nil d hd
  refine ⟨?_, ?_⟩
  · unfold passesCheck
    rw [hJ, hC]
    exact render_prefix_complete _ _ _ h0 hs
  · rw [hJ, hC, render_append _ _ _ h0 hs, joinSep_splitSep]

theorem render_eq_dot_or_sep_iff (d : Str) :
    components d = [] ↔ Clean d = ['.'] ∨ Clean d = [sep] := by
  by_cases hd : d = []
  · subst hd
    simp [components, cleanElems_nil, Clean]
  · rw [Clean_of_ne_nil d hd]
    have hN := cleanElems_normal d
    constructor
    · intro h
      unfold components at h
      rw [h]
      cases isRooted d <;> simp [render, joinSep]
    · intro h
      by_contra h0
      unfold components at h0
      have hne := joinSep_ne_nil _ h0 hN.1
      have hcl : cleanElems (render (isRooted d) (cleanElems d)) = cleanElems d :=
        cleanElems_render _ _ hN
      rcases h with h | h
      · rw [h] at hcl
        exact h0 (hcl.symm.trans (by decide))
      · rw [h] at hcl
        exact h0 (hcl.symm.trans (by decide))

theorem resolveStep_elem (acc : Loc) (e : Str) (he : Elem e) (hd : e ≠ dotdot) :
    resolveStep acc e = acc ++ [e] := by
  simp [resolveStep, he.1, he.2.1, hd]

theorem resolveStep_dotdot (acc : Loc) : resolveStep acc dotdot = acc.dropLast := by
  have h1 : dotdot ≠ ([] : Str) := by decide
  have h2 : dotdot ≠ ['.'] := by decide
  simp [resolveStep, h1, h2]

/-- Resolution goes through one round of cleaning: resolving the cleaned elements is
resolving the elements. -/
theorem resolve_cleanStep (r : Bool) (base : Loc) (hb : r = true → base = [])
    (out : List Str) (e : Str) (hN : Normal r out) :
    (cleanStep r out e).foldl resolveStep base = resolveStep (out.foldl resolveStep base) e := by
  by_cases h1 : e = []
  · simp [cleanStep, resolveStep, h1]
  by_cases h2 : e = ['.']
  · simp [cleanStep, resolveStep, h2]
  by_cases h3 : e = dotdot
  · subst h3
    rw [resolveStep_dotdot]
    cases hl : out.getLast? with
    | none =>
      have hout : out = [] := List.getLast?_eq_none_iff.1 hl
      subst hout
      cases r with
      | true =>
        have := hb rfl
        subst this
        simp [cleanStep, h1, h2, canBacktrack]
      | false =>
        simp [cleanStep, h1, h2, canBacktrack, resolveStep_dotdot]
    | some l =>
      have hout : out.dropLast ++ [l] = out := List.dropLast_append_getLast? l (by simp [hl])
      have hlm : l ∈ out := by rw [← hout]; simp
      by_cases hld : l = dotdot
      · have hr : r = false := by
          cases r with
          | false => rfl
          | true => exact absurd (hld ▸ hlm) (hN.2.1 rfl)
        subst hr
        have hc : canBacktrack out = false := by simp [canBacktrack, hl, hld]
        simp [cleanStep, h1, h2, hc, List.foldl_append, resolveStep_dotdot]
      · have hc : canBacktrack out = true := by simp [canBacktrack, hl, hld]
        have hstep : cleanStep r out dotdot = out.dropLast := by
          simp [cleanStep, h1, h2, hc]
        rw [hstep]
        conv_rhs => rw [← hout]
        rw [List.foldl_append]
        simp only [List.foldl_cons, List.foldl_nil]
        rw [resolveStep_elem _ l (hN.1 l hlm) hld]
        simp
  · simp [cleanStep, h1, h2, h3, List.foldl_append]

theorem resolve_foldl_cleanStep (r : Bool) (base : Loc) (hb : r = true → base = [])
    (l : List Str) (hl : ∀ e ∈ l, sep ∉ e) :
    ∀ out, Normal r out →
      (l.foldl (cleanStep r) out).foldl resolveStep base =
        l.foldl resolveStep (out.foldl resolveStep base) := by
  induction l with
  | nil => intro out _; rfl
  | cons e es ih =>
    intro out hN
    simp only [List.foldl_cons]
    rw [ih (fun x hx => hl x (List.mem_cons_of_mem _ hx)) _
      (cleanStep_normal hN (hl e (List.mem_cons_self _ _))),
      resolve_cleanStep r base hb out e hN]

theorem startOf_rooted (cwd : Loc) (p : Str) : isRooted p = true → startOf cwd p = [] := by
  intro h; simp [startOf, h]

/-- Resolution sees only the cleaned elements of a path. -/
theorem resolve_eq_components (cwd : Loc) (p : Str) :
    resolve cwd p = (components p).foldl resolveStep (startOf cwd p) := by
  have := resolve_foldl_cleanStep (isRooted p) (startOf cwd p) (startOf_rooted cwd p)
    (splitSep p) (splitSep_noSep p) [] (normal_nil _)
  simpa [resolve, components, cleanElems, startOf] using this.symm

theorem resolve_Join (cwd : Loc) (d n : Str) (hd : d ≠ []) :
    resolve cwd (Join d n) = (joinElems d n).foldl resolveStep (startOf cwd d) := by
  rw [resolve_eq_components, components_Join d n hd]
  simp [startOf, isRooted_Join d n hd]

theorem foldl_resolveStep_append (base : Loc) (rest : List Str)
    (he : ∀ e ∈ rest, Elem e) (hd : ∀ e ∈ rest, e ≠ dotdot) :
    rest.foldl resolveStep base = base ++ rest := by
  induction rest generalizing base with
  | nil => simp
  | cons x xs ih =>
    simp only [List.foldl_cons]
    rw [resolveStep_elem base x (he x (List.mem_cons_self _ _)) (hd x (List.mem_cons_self _ _)),
      ih _ (fun e h => he e (List.mem_cons_of_mem _ h)) (fun e h => hd e (List.mem_cons_of_mem _ h))]
    simp

/-! ## Lemmas on the file system -/

theorem reachable_iff (fs : FS) (loc : Loc) :
    reachable fs loc = true ↔ ∀ q, q <+: loc → q ≠ loc → nodeAt fs q = some Node.dir := by
  simp only [reachable, List.all_eq_true, List.mem_inits, decide_eq_true_eq]
  constructor
  · intro h q hq hne
    rcases h q hq with h1 | h1
    · exact absurd h1 hne
    · exact h1
  · intro h q hq
    by_cases hne : q = loc
    · exact Or.inl hne
    · exact Or.inr (h q hq hne)

theorem stat_eq_some (fs : FS) (loc : Loc) (n : Node) :
    stat fs loc = some n ↔ reachable fs loc = true ∧ nodeAt fs loc = some n := by
  unfold stat
  by_cases h : reachable fs loc = true <;> simp [h]

theorem nodeAt_root (fs : FS) : nodeAt fs [] = some Node.dir := by simp [nodeAt]

theorem nodeAt_of_ne_nil (fs : FS) (q : Loc) (h : q ≠ []) : nodeAt fs q = fs.lookup q := by
  simp [nodeAt, h]

theorem stat_root (fs : FS) : stat fs [] = some Node.dir := by
  rw [stat_eq_some]
  refine ⟨(reachable_iff fs []).2 ?_, nodeAt_root fs⟩
  intro q hq hne
  exact absurd (List.prefix_nil.1 hq) hne

/-- A node that `stat` finds has only directories above it. -/
theorem stat_above (fs : FS) (loc q : Loc) (n : Node) (h : stat fs loc = some n)
    (hq : q <+: loc) (hne : q ≠ loc) : stat fs q = some Node.dir := by
  rw [stat_eq_some] at h ⊢
  have hr := (reachable_iff fs loc).1 h.1
  refine ⟨(reachable_iff fs q).2 ?_, hr q hq hne⟩
  intro p hp hpq
  refine hr p (hp.trans hq) ?_
  intro hpl
  subst hpl
  exact hpq (List.Sublist.antisymm hp.sublist hq.sublist)

theorem Grows.grows_refl (fs : FS) : Grows fs fs :=
  fun _ => ⟨fun h => h, fun c h => ⟨c, h⟩⟩

theorem Grows.grows_trans {a b c : FS} (h1 : Grows a b) (h2 : Grows b c) : Grows a c := by
  intro q
  refine ⟨fun h => (h2 q).1 ((h1 q).1 h), fun x h => ?_⟩
  obtain ⟨y, hy⟩ := (h1 q).2 x h
  exact (h2 q).2 y hy

theorem DirsAdded.added_refl (fs : FS) : DirsAdded fs fs := fun _ => Or.inl rfl

theorem DirsAdded.added_trans {a b c : FS} (h1 : DirsAdded a b) (h2 : DirsAdded b c) :
    DirsAdded a c := by
  intro q
  rcases h1 q with e1 | ⟨n1, d1⟩
  · rcases h2 q with e2 | ⟨n2, d2⟩
    · exact Or.inl (e2.trans e1)
    · exact Or.inr ⟨e1 ▸ n2, d2⟩
  · rcases h2 q with e2 | ⟨n2, d2⟩
    · exact Or.inr ⟨n1, e2.trans d1⟩
    · rw [d1] at n2; exact absurd n2 (by simp)

theorem DirsAdded.grows {a b : FS} (h : DirsAdded a b) : Grows a b := by
  intro q
  rcases h q with e | ⟨n, d⟩
  · exact ⟨fun h => e.trans h, fun c h => ⟨c, e.trans h⟩⟩
  · exact ⟨fun h => by rw [n] at h; exact absurd h (by simp),
      fun c h => by rw [n] at h; exact absurd h (by simp)⟩

theorem Grows.nodeAt_dir {a b : FS} (h : Grows a b) (q : Loc)
    (hq : nodeAt a q = some Node.dir) : nodeAt b q = some Node.dir := by
  by_cases h0 : q = []
  · subst h0; exact nodeAt_root b
  · rw [nodeAt_of_ne_nil _ _ h0] at hq ⊢
    exact (h q).1 hq

theorem Grows.reachable {a b : FS} (h : Grows a b) (q : Loc)
    (hq : reachable a q = true) : reachable b q = true := by
  rw [reachable_iff] at hq ⊢
  exact fun p hp hne => h.nodeAt_dir p (hq p hp hne)

theorem Grows.stat_dir {a b : FS} (h : Grows a b) (q : Loc)
    (hq : stat a q = some Node.dir) : stat b q = some Node.dir := by
  rw [stat_eq_some] at hq ⊢
  exact ⟨h.reachable q hq.1, h.nodeAt_dir q hq.2⟩

/-- A file that `stat` finds is still found when the state has grown and the record
at its location is the same. -/
theorem Grows.stat_file {a b : FS} (h : Grows a b) (q : Loc) (c : Str)
    (hq : stat a q = some (Node.file c)) (hl : b.lookup q = a.lookup q) :
    stat b q = some (Node.file c) := by
  rw [stat_eq_some] at hq ⊢
  refine ⟨h.reachable q hq.1, ?_⟩
  have h0 : q ≠ [] := by
    intro h0
    subst h0
    rw [nodeAt_root] at hq
    exact absurd hq.2 (by simp)
  rw [nodeAt_of_ne_nil _ _ h0] at hq ⊢
  rw [hl]; exact hq.2

theorem mkdirFrom_dirsAdded (path : Str) (es : List Str) :
    ∀ (base : Loc) (fs : FS), DirsAdded fs (mkdirFrom path base es fs).fs := by
  induction es with
  | nil => intro base fs; exact DirsAdded.added_refl fs
  | cons e es ih =>
    intro base fs
    unfold mkdirFrom
    cases hl : fs.lookup (base ++ [e]) with
    | none =>
      simp only []
      refine DirsAdded.added_trans ?_ (ih (base ++ [e]) _)
      intro q
      by_cases hq : q = base ++ [e]
      · subst hq
        exact Or.inr ⟨hl, Finmap.lookup_insert fs⟩
      · exact Or.inl (Finmap.lookup_insert_of_ne fs hq)
    | some n =>
      cases n with
      | dir => exact ih (base ++ [e]) fs
      | file c => exact DirsAdded.added_refl fs

theorem prefix_concat_cases (base p : Loc) (e : Str) (es : List Str)
    (hp : p <+: base ++ e :: es) (hlen : base.length < p.length) :
    p = base ++ [e] ∨ (p <+: (base ++ [e]) ++ es ∧ (base ++ [e]).length < p.length) := by
  by_cases h : p.length = base.length + 1
  · left
    have h1 := List.prefix_iff_eq_take.1 hp
    rw [h1, h]
    rw [List.take_append_eq_append_take]
    simp
  · right
    refine ⟨by simpa using hp, ?_⟩
    simp only [List.length_append, List.length_singleton]
    omega

/-- When the scan of `os.MkdirAll` succeeds, every location it passed is a directory. -/
theorem mkdirFrom_ok (path : Str) (es : List Str) :
    ∀ (base : Loc) (fs : FS), (mkdirFrom path base es fs).err = none →
      ∀ p, p <+: base ++ es → base.length < p.length →
        (mkdirFrom path base es fs).fs.lookup p = some Node.dir := by
  induction es with
  | nil =>
    intro base fs _ p hp hlen
    have := hp.length_le
    simp at this
    omega
  | cons e es ih =>
    intro base fs hok p hp hlen
    unfold mkdirFrom at hok ⊢
    cases hl : fs.lookup (base ++ [e]) with
    | none =>
      simp only [hl] at hok ⊢
      rcases prefix_concat_cases base p e es hp hlen with h | ⟨h1, h2⟩
      · subst h
        exact ((mkdirFrom_dirsAdded path es (base ++ [e]) _).grows (base ++ [e])).1
          (Finmap.lookup_insert fs)
      · exact ih (base ++ [e]) _ hok p h1 h2
    | some n =>
      cases n with
      | dir =>
        simp only [hl] at hok ⊢
        rcases prefix_concat_cases base p e es hp hlen with h | ⟨h1, h2⟩
        · subst h
          exact ((mkdirFrom_dirsAdded path es (base ++ [e]) _).grows (base ++ [e])).1 hl
        · exact ih (base ++ [e]) _ hok p h1 h2
      | file c =>
        simp [hl] at hok

/-- The scan of `os.MkdirAll` changes nothing when all directories are there. -/
theorem mkdirFrom_noop (path : Str) (es : List Str) :
    ∀ (base : Loc) (fs : FS),
      (∀ p, p <+: base ++ es → base.length < p.length → fs.lookup p = some Node.dir) →
      mkdirFrom path base es fs = ⟨none, fs⟩ := by
  induction es with
  | nil => intro base fs _; rfl
  | cons e es ih =>
    intro base fs h
    have h1 : fs.lookup (base ++ [e]) = some Node.dir :=
      h (base ++ [e]) ⟨es, by simp⟩ (by simp)
    unfold mkdirFrom
    simp only [h1]
    apply ih
    intro p hp hlen
    refine h p (by simpa using hp) ?_
    simp only [List.length_append, List.length_singleton] at hlen
    omega

theorem MkdirAll_dirsAdded (cwd : Loc) (path : Str) (fs : FS) :
    DirsAdded fs (MkdirAll cwd path fs).fs := by
  unfold MkdirAll
  split
  · exact DirsAdded.added_refl fs
  · exact mkdirFrom_dirsAdded _ _ _ _

theorem MkdirAll_ok_ne_nil (cwd : Loc) (path : Str) (fs : FS)
    (h : (MkdirAll cwd path fs).err = none) : path ≠ [] := by
  intro hp
  simp [MkdirAll, hp] at h

/-- After a successful `os.MkdirAll` the path is a directory. -/
theorem MkdirAll_ok_stat (cwd : Loc) (path : Str) (fs : FS)
    (h : (MkdirAll cwd path fs).err = none) :
    stat (MkdirAll cwd path fs).fs (resolve cwd path) = some Node.dir := by
  have hp := MkdirAll_ok_ne_nil cwd path fs h
  have e : MkdirAll cwd path fs = mkdirFrom path [] (resolve cwd path) fs := by
    simp [MkdirAll, hp]
  rw [e] at h ⊢
  have hk := mkdirFrom_ok path (resolve cwd path) [] fs h
  have hn : ∀ p, p <+: resolve cwd path →
      nodeAt (mkdirFrom path [] (resolve cwd path) fs).fs p = some Node.dir := by
    intro p hp'
    by_cases h0 : p = []
    · subst h0; exact nodeAt_root _
    · rw [nodeAt_of_ne_nil _ _ h0]
      exact hk p (by simpa using hp') (by simpa using List.length_pos.2 h0)
  rw [stat_eq_some]
  exact ⟨(reachable_iff _ _).2 (fun q hq _ => hn q hq), hn _ (List.prefix_refl _)⟩

/-- The call `os.MkdirAll` changes nothing when the path is a directory already. -/
theorem MkdirAll_noop (cwd : Loc) (path : Str) (fs : FS) (hp : path ≠ [])
    (h : stat fs (resolve cwd path) = some Node.dir) :
    MkdirAll cwd path fs = ⟨none, fs⟩ := by
  have e : MkdirAll cwd path fs = mkdirFrom path [] (resolve cwd path) fs := by
    simp [MkdirAll, hp]
  rw [e]
  apply mkdirFrom_noop
  intro p hp' hlen
  have h0 : p ≠ [] := by
    intro h0; subst h0; simp at hlen
  have hp2 : p <+: resolve cwd path := by simpa using hp'
  rw [← nodeAt_of_ne_nil _ _ h0]
  by_cases hpe : p = resolve cwd path
  · rw [hpe]; exact ((stat_eq_some _ _ _).1 h).2
  · exact ((stat_eq_some _ _ _).1 (stat_above fs _ p _ h hp2 hpe)).2

theorem Create_ok (cwd : Loc) (path : Str) (fs : FS) (h : (Create cwd path fs).err = none) :
    path ≠ [] ∧ stat fs (resolve cwd path).dropLast = some Node.dir ∧
      nodeAt fs (resolve cwd path) ≠ some Node.dir ∧
      (Create cwd path fs).fs = fs.insert (resolve cwd path) (Node.file []) := by
  unfold Create at h ⊢
  by_cases hp : path = []
  · simp [hp] at h
  · simp only [hp, if_false] at h ⊢
    cases hs : stat fs (resolve cwd path).dropLast with
    | none => simp [hs] at h
    | some n =>
      cases n with
      | file c => simp [hs] at h
      | dir =>
        simp only [hs] at h ⊢
        by_cases hn : nodeAt fs (resolve cwd path) = some Node.dir
        · simp [hn] at h
        · simp [hn, hp]

theorem Create_succeeds (cwd : Loc) (path : Str) (fs : FS) (hp : path ≠ [])
    (h1 : stat fs (resolve cwd path).dropLast = some Node.dir)
    (h2 : nodeAt fs (resolve cwd path) ≠ some Node.dir) :
    Create cwd path fs = ⟨none, fs.insert (resolve cwd path) (Node.file [])⟩ := by
  simp [Create, hp, h1, h2]

theorem Create_err (cwd : Loc) (path : Str) (fs : FS) (e : Err)
    (h : (Create cwd path fs).err = some e) : (Create cwd path fs).fs = fs := by
  unfold Create at h ⊢
  by_cases hp : path = []
  · simp [hp]
  · simp only [hp, if_false] at h ⊢
    cases hs : stat fs (resolve cwd path).dropLast with
    | none => simp [hs]
    | some n =>
      cases n with
      | file c => simp [hs]
      | dir =>
        simp only [hs] at h ⊢
        by_cases hn : nodeAt fs (resolve cwd path) = some Node.dir
        · simp [hn]
        · simp [hn] at h

theorem nodeAt_insert_of_ne (fs : FS) (loc q : Loc) (n : Node) (h : q ≠ loc) :
    nodeAt (fs.insert loc n) q = nodeAt fs q := by
  unfold nodeAt
  by_cases h0 : q = []
  · simp [h0]
  · simp [h0, Finmap.lookup_insert_of_ne fs h]

/-- A file written below a directory is found by `stat` with the bytes written. -/
theorem stat_insert_file (fs : FS) (loc : Loc) (c : Str) (h0 : loc ≠ [])
    (h1 : stat fs loc.dropLast = some Node.dir) :
    stat (fs.insert loc (Node.file c)) loc = some (Node.file c) := by
  rw [stat_eq_some]
  constructor
  · rw [reachable_iff]
    intro q hq hne
    rw [nodeAt_insert_of_ne _ _ _ _ hne]
    have hq' : q <+: loc.dropLast := by
      obtain ⟨t, ht⟩ := hq
      have hl : loc.dropLast ++ [loc.getLast h0] = loc := List.dropLast_concat_getLast h0
      cases t using List.reverseRecOn with
      | nil => simp at ht; exact absurd ht hne
      | append_singleton t' x =>
        rw [← List.append_assoc] at ht
        have := congrArg List.dropLast ht
        simp only [List.dropLast_concat] at this
        exact ⟨t', this⟩
    by_cases hqe : q = loc.dropLast
    · rw [hqe]; exact ((stat_eq_some _ _ _).1 h1).2
    · exact ((stat_eq_some _ _ _).1 (stat_above fs _ q _ h1 hq' hqe)).2
  · rw [nodeAt_of_ne_nil _ _ h0]
    exact Finmap.lookup_insert fs

theorem extractZipFile_rejected (cwd : Loc) (f : File) (d : Str) (fs : FS)
    (h : passesCheck d f.Name = false) :
    extractZipFile cwd f d fs = ⟨some (Err.invalidPath f.Name), fs⟩ := by
  unfold passesCheck at h
  simp [extractZipFile, h]

theorem extractZipFile_dir (cwd : Loc) (f : File) (d : Str) (fs : FS)
    (h : passesCheck d f.Name = true) (hd : f.IsDir = true) :
    extractZipFile cwd f d fs = MkdirAll cwd (Join d f.Name) fs := by
  unfold passesCheck at h
  simp [extractZipFile, h, hd]

theorem extractZipFile_file (cwd : Loc) (f : File) (d : Str) (fs : FS)
    (h : passesCheck d f.Name = true) (hd : f.IsDir = false) :
    extractZipFile cwd f d fs =
      match MkdirAll cwd (Dir (Join d f.Name)) fs with
      | ⟨some e, fs1⟩ => ⟨some e, fs1⟩
      | ⟨none, fs1⟩ =>
        match f.payload with
        | Payload.openFails msg => ⟨some (Err.lib msg), fs1⟩
        | Payload.copyFails written msg =>
          match Create cwd (Join d f.Name) fs1 with
          | ⟨some e', fs2⟩ => ⟨some e', fs2⟩
          | ⟨none, fs2⟩ => ⟨some (Err.lib msg), writeAll cwd (Join d f.Name) written fs2⟩
        | Payload.data content =>
          match Create cwd (Join d f.Name) fs1 with
          | ⟨some e', fs2⟩ => ⟨some e', fs2⟩
          | ⟨none, fs2⟩ => ⟨none, writeAll cwd (Join d f.Name) content fs2⟩ := by
  unfold passesCheck at h
  simp [extractZipFile, h, hd]

theorem extractZipFile_passes (cwd : Loc) (f : File) (d : Str) (fs : FS)
    (h : (extractZipFile cwd f d fs).err ≠ some (Err.invalidPath f.Name)) :
    passesCheck d f.Name = true := by
  cases hc : passesCheck d f.Name with
  | true => rfl
  | false =>
    rw [extractZipFile_rejected cwd f d fs hc] at h
    exact absurd rfl h

theorem writeAll_Create (cwd : Loc) (path : Str) (c : Str) (fs : FS)
    (h : (Create cwd path fs).err = none) :
    writeAll cwd path c (Create cwd path fs).fs = fs.insert (resolve cwd path) (Node.file c) := by
  rw [(Create_ok cwd path fs h).2.2.2]
  simp [writeAll, Finmap.insert_insert]

theorem extractZipFile_ok_dir (cwd : Loc) (f : File) (d : Str) (fs : FS)
    (h : (extractZipFile cwd f d fs).err = none) (hd : f.IsDir = true) :
    passesCheck d f.Name = true ∧ (MkdirAll cwd (Join d f.Name) fs).err = none ∧
      (extractZipFile cwd f d fs).fs = (MkdirAll cwd (Join d f.Name) fs).fs := by
  have hp := extractZipFile_passes cwd f d fs (by rw [h]; simp)
  rw [extractZipFile_dir cwd f d fs hp hd] at h ⊢
  exact ⟨hp, h, rfl⟩

/-- What a successful extraction of a file entry did: the name passed the test, the
parent directories were made, and the content was written at the joined path. -/
theorem extractZipFile_ok_file (cwd : Loc) (f : File) (d : Str) (fs : FS)
    (h : (extractZipFile cwd f d fs).err = none) (hd : f.IsDir = false) :
    passesCheck d f.Name = true ∧ ∃ c, f.payload = Payload.data c ∧
      (MkdirAll cwd (Dir (Join d f.Name)) fs).err = none ∧
      (Create cwd (Join d f.Name) (MkdirAll cwd (Dir (Join d f.Name)) fs).fs).err = none ∧
      (extractZipFile cwd f d fs).fs =
        (MkdirAll cwd (Dir (Join d f.Name)) fs).fs.insert (destLoc cwd d f) (Node.file c) := by
  have hp := extractZipFile_passes cwd f d fs (by rw [h]; simp)
  refine ⟨hp, ?_⟩
  rw [extractZipFile_file cwd f d fs hp hd] at h ⊢
  rcases hm : MkdirAll cwd (Dir (Join d f.Name)) fs with ⟨e1, fs1⟩
  rw [hm] at h
  cases e1 with
  | some e => simp at h
  | none =>
    simp only [] at h
    cases hpay : f.payload with
    | openFails e => rw [hpay] at h; simp at h
    | copyFails w e =>
      rw [hpay] at h
      rcases hc : Create cwd (Join d f.Name) fs1 with ⟨e2, fs2⟩
      rw [hc] at h
      cases e2 <;> simp at h
    | data c =>
      rw [hpay] at h
      simp only [] at h
      have hw := writeAll_Create cwd (Join d f.Name) c fs1
      rcases hc : Create cwd (Join d f.Name) fs1 with ⟨e2, fs2⟩
      rw [hc] at h hw
      cases e2 with
      | some e => simp at h
      | none =>
        refine ⟨c, rfl, rfl, ?_, ?_⟩
        · rfl
        · simp only [hc, destLoc]
          exact hw rfl

/-- An extraction whose steps succeed on a state gives the state with the file written. -/
theorem extractZipFile_file_succeeds (cwd : Loc) (f : File) (d : Str) (t : FS) (c : Str)
    (hp : passesCheck d f.Name = true) (hd : f.IsDir = false)
    (hc : f.payload = Payload.data c)
    (hm : MkdirAll cwd (Dir (Join d f.Name)) t = ⟨none, t⟩)
    (hcr : (Create cwd (Join d f.Name) t).err = none) :
    extractZipFile cwd f d t = ⟨none, t.insert (destLoc cwd d f) (Node.file c)⟩ := by
  rw [extractZipFile_file cwd f d t hp hd, hm, hc]
  simp only []
  have hw := writeAll_Create cwd (Join d f.Name) c t hcr
  rcases hcc : Create cwd (Join d f.Name) t with ⟨e2, fs2⟩
  rw [hcc] at hcr hw
  simp only [] at hcr hw
  subst hcr
  simp only []
  rw [hw]; rfl

/-- The state a file entry leaves: the state after making the parent directories,
with or without a file written at the destination. -/
theorem extractZipFile_file_fs (cwd : Loc) (f : File) (d : Str) (fs : FS)
    (hp : passesCheck d f.Name = true) (hd : f.IsDir = false) :
    (extractZipFile cwd f d fs).fs = (MkdirAll cwd (Dir (Join d f.Name)) fs).fs ∨
    ∃ w, (Create cwd (Join d f.Name) (MkdirAll cwd (Dir (Join d f.Name)) fs).fs).err = none ∧
      (extractZipFile cwd f d fs).fs =
        (MkdirAll cwd (Dir (Join d f.Name)) fs).fs.insert (destLoc cwd d f) (Node.file w) := by
  rw [extractZipFile_file cwd f d fs hp hd]
  rcases hm : MkdirAll cwd (Dir (Join d f.Name)) fs with ⟨e1, fs1⟩
  cases e1 with
  | some e => exact Or.inl rfl
  | none =>
    simp only []
    have hcase : ∀ (w : Str) (o : Option Err),
        ((match Create cwd (Join d f.Name) fs1 with
          | ⟨some e', fs2⟩ => (⟨some e', fs2⟩ : Outcome)
          | ⟨none, fs2⟩ => ⟨o, writeAll cwd (Join d f.Name) w fs2⟩).fs = fs1) ∨
        ∃ w', (Create cwd (Join d f.Name) fs1).err = none ∧
          (match Create cwd (Join d f.Name) fs1 with
          | ⟨some e', fs2⟩ => (⟨some e', fs2⟩ : Outcome)
          | ⟨none, fs2⟩ => ⟨o, writeAll cwd (Join d f.Name) w fs2⟩).fs =
            fs1.insert (destLoc cwd d f) (Node.file w') := by
      intro w o
      rcases hc : Create cwd (Join d f.Name) fs1 with ⟨e2, fs2⟩
      cases e2 with
      | some e' =>
        left
        have := Create_err cwd (Join d f.Name) fs1 e' (by rw [hc])
        rw [hc] at this
        exact this
      | none =>
        right
        have hce : (Create cwd (Join d f.Name) fs1).err = none := by rw [hc]
        have := writeAll_Create cwd (Join d f.Name) w fs1 hce
        rw [hc] at this
        exact ⟨w, rfl, this⟩
    cases hpay : f.payload with
    | openFails e => exact Or.inl rfl
    | copyFails w e => exact hcase w (some (Err.lib e))
    | data c => exact hcase c none

/-- What one extraction may change at a location: nothing, or a directory is created
where nothing was, or a file is written at the destination of a file entry. -/
theorem extractZipFile_change (cwd : Loc) (f : File) (d : Str) (fs : FS) (q : Loc) :
    (extractZipFile cwd f d fs).fs.lookup q = fs.lookup q ∨
    (fs.lookup q = none ∧ (extractZipFile cwd f d fs).fs.lookup q = some Node.dir) ∨
    (q = destLoc cwd d f ∧ f.IsDir = false ∧ fs.lookup q ≠ some Node.dir ∧
      ∃ c, (extractZipFile cwd f d fs).fs.lookup q = some (Node.file c)) := by
  cases hp : passesCheck d f.Name with
  | false => rw [extractZipFile_rejected cwd f d fs hp]; exact Or.inl rfl
  | true =>
    cases hd : f.IsDir with
    | true =>
      rw [extractZipFile_dir cwd f d fs hp hd]
      rcases MkdirAll_dirsAdded cwd (Join d f.Name) fs q with h | h
      · exact Or.inl h
      · exact Or.inr (Or.inl h)
    | false =>
      have hda := MkdirAll_dirsAdded cwd (Dir (Join d f.Name)) fs
      rcases extractZipFile_file_fs cwd f d fs hp hd with h | ⟨w, hce, h⟩
      · rw [h]
        rcases hda q with h' | h'
        · exact Or.inl h'
        · exact Or.inr (Or.inl h')
      · rw [h]
        have hco := Create_ok _ _ _ hce
        by_cases hq : q = destLoc cwd d f
        · right; right
          refine ⟨hq, rfl, ?_, w, by rw [hq]; exact Finmap.lookup_insert _⟩
          have h0 : q ≠ [] := by
            intro h0
            apply hco.2.2.1
            have : resolve cwd (Join d f.Name) = [] := by rw [← h0, hq]; rfl
            rw [this]; exact nodeAt_root _
          intro hdir
          apply hco.2.2.1
          have : resolve cwd (Join d f.Name) = q := by rw [hq]; rfl
          rw [this, nodeAt_of_ne_nil _ _ h0]
          exact ((hda.grows q).1 hdir)
        · rw [Finmap.lookup_insert_of_ne _ hq]
          rcases hda q with h' | h'
          · exact Or.inl h'
          · exact Or.inr (Or.inl h')

theorem extractZipFile_grows (cwd : Loc) (f : File) (d : Str) (fs : FS) :
    Grows fs (extractZipFile cwd f d fs).fs := by
  intro q
  rcases extractZipFile_change cwd f d fs q with h | ⟨h1, h2⟩ | ⟨_, _, h3, c, h4⟩
  · exact ⟨fun h' => h.trans h', fun c h' => ⟨c, h.trans h'⟩⟩
  · exact ⟨fun h' => by rw [h1] at h'; exact absurd h' (by simp),
      fun c h' => by rw [h1] at h'; exact absurd h' (by simp)⟩
  · exact ⟨fun h' => absurd h' h3, fun _ _ => ⟨c, h4⟩⟩

/-- An extraction leaves a file it is not written to as it is. -/
theorem extractZipFile_keeps (cwd : Loc) (f : File) (d : Str) (fs : FS) (q : Loc) (c : Str)
    (hq : fs.lookup q = some (Node.file c)) (hne : f.IsDir = false → destLoc cwd d f ≠ q) :
    (extractZipFile cwd f d fs).fs.lookup q = some (Node.file c) := by
  rcases extractZipFile_change cwd f d fs q with h | ⟨h1, _⟩ | ⟨h1, h2, _⟩
  · exact h.trans hq
  · rw [h1] at hq; exact absurd hq (by simp)
  · exact absurd h1.symm (hne h2)

theorem extractFiles_cons_of_ok (cwd : Loc) (d : Str) (f : File) (rest : List File) (fs : FS)
    (h : (extractZipFile cwd f d fs).err = none) :
    extractFiles cwd d (f :: rest) fs = extractFiles cwd d rest (extractZipFile cwd f d fs).fs := by
  rcases ho : extractZipFile cwd f d fs with ⟨e, fs1⟩
  rw [ho] at h
  simp only [] at h
  subst h
  simp [extractFiles, ho]

theorem extractFiles_cons_of_err (cwd : Loc) (d : Str) (f : File) (rest : List File) (fs : FS)
    (e : Err) (h : (extractZipFile cwd f d fs).err = some e) :
    extractFiles cwd d (f :: rest) fs = extractZipFile cwd f d fs := by
  rcases ho : extractZipFile cwd f d fs with ⟨e', fs1⟩
  rw [ho] at h
  simp only [] at h
  subst h
  simp [extractFiles, ho]

theorem extractFiles_cons_ok (cwd : Loc) (d : Str) (f : File) (rest : List File) (fs : FS)
    (h : (extractFiles cwd d (f :: rest) fs).err = none) :
    (extractZipFile cwd f d fs).err = none := by
  cases he : (extractZipFile cwd f d fs).err with
  | none => rfl
  | some e =>
    rw [extractFiles_cons_of_err cwd d f rest fs e he, he] at h
    exact absurd h (by simp)

theorem extractFiles_grows (cwd : Loc) (d : Str) (files : List File) :
    ∀ fs, Grows fs (extractFiles cwd d files fs).fs := by
  induction files with
  | nil => intro fs; exact Grows.grows_refl fs
  | cons f rest ih =>
    intro fs
    cases he : (extractZipFile cwd f d fs).err with
    | none =>
      rw [extractFiles_cons_of_ok cwd d f rest fs he]
      exact (extractZipFile_grows cwd f d fs).grows_trans (ih _)
    | some e =>
      rw [extractFiles_cons_of_err cwd d f rest fs e he]
      exact extractZipFile_grows cwd f d fs

/-- The extraction of a list of entries leaves a file as it is when no file entry of
the list is written to its location. -/
theorem extractFiles_keeps (cwd : Loc) (d : Str) (files : List File) (q : Loc) (c : Str) :
    ∀ fs, fs.lookup q = some (Node.file c) →
      (∀ f ∈ files, f.IsDir = false → destLoc cwd d f ≠ q) →
      (extractFiles cwd d files fs).fs.lookup q = some (Node.file c) := by
  induction files with
  | nil => intro fs h _; exact h
  | cons f rest ih =>
    intro fs h hne
    have h1 := extractZipFile_keeps cwd f d fs q c h (hne f (List.mem_cons_self _ _))
    cases he : (extractZipFile cwd f d fs).err with
    | none =>
      rw [extractFiles_cons_of_ok cwd d f rest fs he]
      exact ih _ h1 (fun g hg => hne g (List.mem_cons_of_mem _ hg))
    | some e =>
      rw [extractFiles_cons_of_err cwd d f rest fs e he]
      exact h1

/-- Extraction of a list in two parts: the second part starts where the first ended,
when the first ended without error. -/
theorem extractFiles_append (cwd : Loc) (d : Str) (a b : List File) :
    ∀ fs, (extractFiles cwd d a fs).err = none →
      extractFiles cwd d (a ++ b) fs = extractFiles cwd d b (extractFiles cwd d a fs).fs := by
  induction a with
  | nil => intro fs _; rfl
  | cons f rest ih =>
    intro fs h
    have he := extractFiles_cons_ok cwd d f rest fs h
    rw [extractFiles_cons_of_ok cwd d f rest fs he] at h ⊢
    rw [List.cons_append, extractFiles_cons_of_ok cwd d f (rest ++ b) fs he]
    exact ih _ h

theorem extractFiles_append_ok (cwd : Loc) (d : Str) (a b : List File) :
    ∀ fs, (extractFiles cwd d (a ++ b) fs).err = none → (extractFiles cwd d a fs).err = none := by
  induction a with
  | nil => intro fs _; rfl
  | cons f rest ih =>
    intro fs h
    rw [List.cons_append] at h
    have he := extractFiles_cons_ok cwd d f (rest ++ b) fs h
    rw [extractFiles_cons_of_ok cwd d f (rest ++ b) fs he] at h
    rw [extractFiles_cons_of_ok cwd d f rest fs he]
    exact ih _ h

theorem mkdirFrom_err_isIO (path : Str) (es : List Str) :
    ∀ (base : Loc) (fs : FS) (e : Err), (mkdirFrom path base es fs).err = some e →
      e.isIO = true := by
  induction es with
  | nil => intro base fs e h; simp [mkdirFrom] at h
  | cons x xs ih =>
    intro base fs e h
    unfold mkdirFrom at h
    cases hl : fs.lookup (base ++ [x]) with
    | none => rw [hl] at h; exact ih _ _ e h
    | some n =>
      rw [hl] at h
      cases n with
      | dir => exact ih _ _ e h
      | file c =>
        simp only [Option.some.injEq] at h
        rw [← h]; rfl

theorem MkdirAll_err_isIO (cwd : Loc) (path : Str) (fs : FS) (e : Err)
    (h : (MkdirAll cwd path fs).err = some e) : e.isIO = true := by
  unfold MkdirAll at h
  by_cases hp : path = []
  · simp only [hp, if_true, Option.some.injEq] at h
    rw [← h]; rfl
  · simp only [hp, if_false] at h
    exact mkdirFrom_err_isIO _ _ _ _ e h

theorem Create_err_isIO (cwd : Loc) (path : Str) (fs : FS) (e : Err)
    (h : (Create cwd path fs).err = some e) : e.isIO = true := by
  unfold Create at h
  by_cases hp : path = []
  · simp only [hp, if_true, Option.some.injEq] at h
    rw [← h]; rfl
  · simp only [hp, if_false] at h
    cases hs : stat fs (resolve cwd path).dropLast with
    | none =>
      simp only [hs, Option.some.injEq] at h
      rw [← h]; rfl
    | some n =>
      cases n with
      | file c =>
        simp only [hs, Option.some.injEq] at h
        rw [← h]; rfl
      | dir =>
        simp only [hs] at h
        by_cases hn : nodeAt fs (resolve cwd path) = some Node.dir
        · simp only [hn, if_true, Option.some.injEq] at h
          rw [← h]; rfl
        · simp [hn] at h

/-- The errors of `extractZipFile`: the path-safety error when the test fails, and
otherwise only I/O errors. -/
theorem extractZipFile_err_cases (cwd : Loc) (f : File) (d : Str) (fs : FS) (e : Err)
    (h : (extractZipFile cwd f d fs).err = some e) :
    (passesCheck d f.Name = false ∧ e = Err.invalidPath f.Name) ∨
    (passesCheck d f.Name = true ∧ e.isIO = true) := by
  cases hp : passesCheck d f.Name with
  | false =>
    rw [extractZipFile_rejected cwd f d fs hp] at h
    simp only [Option.some.injEq] at h
    exact Or.inl ⟨rfl, h.symm⟩
  | true =>
    refine Or.inr ⟨rfl, ?_⟩
    cases hd : f.IsDir with
    | true =>
      rw [extractZipFile_dir cwd f d fs hp hd] at h
      exact MkdirAll_err_isIO _ _ _ e h
    | false =>
      rw [extractZipFile_file cwd f d fs hp hd] at h
      have hM := MkdirAll_err_isIO cwd (Dir (Join d f.Name)) fs
      rcases hm : MkdirAll cwd (Dir (Join d f.Name)) fs with ⟨e1, fs1⟩
      rw [hm] at h hM
      cases e1 with
      | some e' =>
        simp only [Option.some.injEq] at h
        exact hM e (by rw [h])
      | none =>
        simp only [] at h
        have hC := Create_err_isIO cwd (Join d f.Name) fs1
        cases hpay : f.payload with
        | openFails msg =>
          rw [hpay] at h
          simp only [Option.some.injEq] at h
          rw [← h]; rfl
        | copyFails w msg =>
          rw [hpay] at h
          simp only [] at h
          rcases hc : Create cwd (Join d f.Name) fs1 with ⟨e2, fs2⟩
          rw [hc] at h hC
          cases e2 with
          | some e' =>
            simp only [Option.some.injEq] at h
            exact hC e (by rw [h])
          | none =>
            simp only [Option.some.injEq] at h
            rw [← h]; rfl
        | data c =>
          rw [hpay] at h
          simp only [] at h
          rcases hc : Create cwd (Join d f.Name) fs1 with ⟨e2, fs2⟩
          rw [hc] at h hC
          cases e2 with
          | some e' =>
            simp only [Option.some.injEq] at h
            exact hC e (by rw [h])
          | none => simp at h

/-- The path-safety error is returned exactly when the test on the joined path fails. -/
theorem extractZipFile_invalid_iff (cwd : Loc) (f : File) (d : Str) (fs : FS) :
    (extractZipFile cwd f d fs).err = some (Err.invalidPath f.Name) ↔
      passesCheck d f.Name = false := by
  constructor
  · intro h
    rcases extractZipFile_err_cases cwd f d fs _ h with h1 | h1
    · exact h1.1
    · exact absurd h1.2 (by simp [Err.isIO])
  · intro h
    rw [extractZipFile_rejected cwd f d fs h]

theorem Join_absolute (d n : Str) (hd : d ≠ []) : Join d (sep :: n) = Join d n := by
  rw [Join_of_ne_nil d _ hd, Join_of_ne_nil d _ hd]
  simp [splitSep, cleanStep]

theorem passesCheck_absolute (d n : Str) (hd : d ≠ []) :
    passesCheck d (sep :: n) = passesCheck d n := by
  simp [passesCheck, Join_absolute d n hd]

theorem not_passes_of_Join_eq_Clean (d n : Str) (h : Join d n = Clean d) :
    passesCheck d n = false := by
  cases hp : passesCheck d n with
  | false => rfl
  | true =>
    have : Clean d ++ [sep] <+: Join d n := by simpa [passesCheck, HasPrefix] using hp
    rw [h] at this
    have := this.length_le
    simp at this

theorem Join_self_names (d n : Str) (hd : d ≠ [])
    (hn : n = [] ∨ n = ['.'] ∨ n = ['.', sep]) : Join d n = Clean d := by
  rw [Join_of_ne_nil d n hd, Clean_of_ne_nil d hd]
  rcases hn with h | h | h <;> subst h <;> simp [splitSep, cleanStep, sep]

theorem not_passes_self_names (d n : Str) (hn : n = [] ∨ n = ['.'] ∨ n = ['.', sep]) :
    passesCheck d n = false := by
  by_cases hd : d = []
  · subst hd; exact passesCheck_nil n
  · exact not_passes_of_Join_eq_Clean d n (Join_self_names d n hd hn)

theorem cleanStep_dotdot_of_last (r : Bool) (D : List Str) (l : Str)
    (hl : D.getLast? = some l) (hne : l ≠ dotdot) : cleanStep r D dotdot = D.dropLast := by
  have h1 : dotdot ≠ ([] : Str) := by decide
  have h2 : dotdot ≠ ['.'] := by decide
  simp [cleanStep, h1, h2, canBacktrack, hl, hne]

/-- The name `../escape.txt` is rejected below every destination directory that does
not end in a parent segment. -/
theorem not_passes_escape (d : Str) (hp : endsInParent d = false) :
    passesCheck d "../escape.txt".toList = false := by
  cases hc : passesCheck d "../escape.txt".toList with
  | false => rfl
  | true =>
    exfalso
    obtain ⟨_, h0, rest, hr, hJ⟩ := passesCheck_sound d _ hc
    obtain ⟨l, hl, hne⟩ := canBacktrack_of_not_endsInParent d h0 hp
    have hs : splitSep "../escape.txt".toList = [dotdot, "escape.txt".toList] := by decide
    have ho : isOrdinary "escape.txt".toList = true := by decide
    have hJ2 : joinElems d "../escape.txt".toList =
        (components d).dropLast ++ ["escape.txt".toList] := by
      unfold joinElems
      rw [hs]
      simp only [List.foldl_cons, List.foldl_nil]
      have := cleanStep_dotdot_of_last (isRooted d) (components d) l hl hne
      unfold components at this
      rw [this, cleanStep_ordinary _ _ _ ho]
      rfl
    rw [hJ2] at hJ
    have hlen := congrArg List.length hJ
    have hpos : 0 < (components d).length := List.length_pos.2 h0
    have hrpos : 0 < rest.length := List.length_pos.2 hr
    simp only [List.length_append, List.length_dropLast, List.length_singleton] at hlen
    omega

theorem Grows.stat_file_kind {a b : FS} (h : Grows a b) (q : Loc) (c : Str)
    (hq : stat a q = some (Node.file c)) : ∃ c', stat b q = some (Node.file c') := by
  rw [stat_eq_some] at hq
  have h0 : q ≠ [] := by
    intro h0
    subst h0
    rw [nodeAt_root] at hq
    exact absurd hq.2 (by simp)
  rw [nodeAt_of_ne_nil _ _ h0] at hq
  obtain ⟨c', hc'⟩ := (h q).2 c hq.2
  refine ⟨c', ?_⟩
  rw [stat_eq_some, nodeAt_of_ne_nil _ _ h0]
  exact ⟨h.reachable q hq.1, hc'⟩

theorem stat_file_lookup (fs : FS) (q : Loc) (c : Str) (h : stat fs q = some (Node.file c)) :
    fs.lookup q = some (Node.file c) := by
  rw [stat_eq_some] at h
  have h0 : q ≠ [] := by
    intro h0
    subst h0
    rw [nodeAt_root] at h
    exact absurd h.2 (by simp)
  rw [nodeAt_of_ne_nil _ _ h0] at h
  exact h.2

/-- After the successful extraction of a directory entry its destination is a
directory. -/
theorem extractZipFile_dir_post (cwd : Loc) (f : File) (d : Str) (fs : FS)
    (h : (extractZipFile cwd f d fs).err = none) (hd : f.IsDir = true) :
    stat (extractZipFile cwd f d fs).fs (destLoc cwd d f) = some Node.dir := by
  obtain ⟨_, hm, hfs⟩ := extractZipFile_ok_dir cwd f d fs h hd
  rw [hfs]
  exact MkdirAll_ok_stat cwd _ fs hm

/-- After the successful extraction of a file entry its destination is a regular file
with the content of the entry. -/
theorem extractZipFile_file_post (cwd : Loc) (f : File) (d : Str) (fs : FS)
    (h : (extractZipFile cwd f d fs).err = none) (hd : f.IsDir = false) :
    ∃ c, f.payload = Payload.data c ∧
      stat (extractZipFile cwd f d fs).fs (destLoc cwd d f) = some (Node.file c) := by
  obtain ⟨_, c, hc, _, hcr, hfs⟩ := extractZipFile_ok_file cwd f d fs h hd
  refine ⟨c, hc, ?_⟩
  have hco := Create_ok _ _ _ hcr
  have hl0 : destLoc cwd d f ≠ [] := by
    intro h0
    apply hco.2.2.1
    have : resolve cwd (Join d f.Name) = [] := h0
    rw [this]; exact nodeAt_root _
  rw [hfs]
  exact stat_insert_file _ _ _ hl0 hco.2.1

theorem grows_insert_file (a : FS) (loc : Loc) (c : Str)
    (h : a.lookup loc ≠ some Node.dir) : Grows a (a.insert loc (Node.file c)) := by
  intro q
  by_cases hq : q = loc
  · subst hq
    exact ⟨fun h' => absurd h' h, fun _ _ => ⟨c, Finmap.lookup_insert a⟩⟩
  · rw [Finmap.lookup_insert_of_ne a hq]
    exact ⟨fun h' => h', fun x h' => ⟨x, h'⟩⟩

theorem lookup_ne_dir_of_Create_ok (cwd : Loc) (path : Str) (fs : FS)
    (h : (Create cwd path fs).err = none) :
    resolve cwd path ≠ [] ∧ fs.lookup (resolve cwd path) ≠ some Node.dir := by
  have hco := Create_ok _ _ _ h
  have h0 : resolve cwd path ≠ [] := by
    intro h0
    apply hco.2.2.1
    rw [h0]; exact nodeAt_root _
  refine ⟨h0, ?_⟩
  rw [← nodeAt_of_ne_nil _ _ h0]
  exact hco.2.2.1

/-- The second run of an extraction: started on a state `t` that agrees with the
result `fs'` of the first run except at files, where it may still hold what the first
run had at that point, the same entries extract without error and give `fs'`. -/
theorem extractFiles_rerun (cwd : Loc) (d : Str) (files : List File) :
    ∀ (s t : FS), (extractFiles cwd d files s).err = none →
      (∀ q, t.lookup q = (extractFiles cwd d files s).fs.lookup q ∨
        (t.lookup q = s.lookup q ∧ ∃ c, s.lookup q = some (Node.file c))) →
      extractFiles cwd d files t = ⟨none, (extractFiles cwd d files s).fs⟩ := by
  induction files with
  | nil =>
    intro s t _ hinv
    have : t = s := by
      apply Finmap.ext_lookup
      intro q
      rcases hinv q with h | h
      · exact h
      · exact h.1
    rw [this]; rfl
  | cons f rest ih =>
    intro s t hok hinv
    have he := extractFiles_cons_ok cwd d f rest s hok
    have hrest := extractFiles_cons_of_ok cwd d f rest s he
    rw [hrest] at hok hinv ⊢
    -- the states of the first run
    have hss1 := extractZipFile_grows cwd f d s
    have hs1f := extractFiles_grows cwd d rest (extractZipFile cwd f d s).fs
    have hsf : Grows s (extractFiles cwd d rest (extractZipFile cwd f d s).fs).fs :=
      hss1.grows_trans hs1f
    -- the result of the first run is below the state of the second run
    have hft : Grows (extractFiles cwd d rest (extractZipFile cwd f d s).fs).fs t := by
      intro q
      rcases hinv q with h | ⟨h1, c, h2⟩
      · exact ⟨fun h' => h.trans h', fun c h' => ⟨c, h.trans h'⟩⟩
      · obtain ⟨c', hc'⟩ := (hsf q).2 c h2
        exact ⟨fun h' => by rw [hc'] at h'; exact absurd h' (by simp),
          fun _ _ => ⟨c, h1.trans h2⟩⟩
    have hs1t : Grows (extractZipFile cwd f d s).fs t := hs1f.grows_trans hft
    cases hd : f.IsDir with
    | true =>
      obtain ⟨hp, hm, hfs⟩ := extractZipFile_ok_dir cwd f d s he hd
      have hst : stat t (resolve cwd (Join d f.Name)) = some Node.dir :=
        hs1t.stat_dir _ (extractZipFile_dir_post cwd f d s he hd)
      have ht : extractZipFile cwd f d t = ⟨none, t⟩ := by
        rw [extractZipFile_dir cwd f d t hp hd]
        exact MkdirAll_noop cwd _ t (MkdirAll_ok_ne_nil cwd _ s hm) hst
      rw [extractFiles_cons_of_ok cwd d f rest t (by rw [ht]), ht]
      apply ih _ t hok
      intro q
      rcases hinv q with h | ⟨h1, c, h2⟩
      · exact Or.inl h
      · right
        have hda := MkdirAll_dirsAdded cwd (Join d f.Name) s q
        rw [hfs]
        rcases hda with h3 | h3
        · exact ⟨h1.trans h3.symm, c, h3.trans h2⟩
        · rw [h3.1] at h2; exact absurd h2 (by simp)
    | false =>
      obtain ⟨hp, c, hc, hm, hcr, hfs⟩ := extractZipFile_ok_file cwd f d s he hd
      have hco := Create_ok _ _ _ hcr
      have hne := lookup_ne_dir_of_Create_ok _ _ _ hcr
      have hda := MkdirAll_dirsAdded cwd (Dir (Join d f.Name)) s
      -- the state after the parent directories were made is below the second run
      have h1t : Grows (MkdirAll cwd (Dir (Join d f.Name)) s).fs t := by
        have : Grows (MkdirAll cwd (Dir (Join d f.Name)) s).fs (extractZipFile cwd f d s).fs := by
          rw [hfs]
          exact grows_insert_file _ _ c hne.2
        exact this.grows_trans hs1t
      have hmt : MkdirAll cwd (Dir (Join d f.Name)) t = ⟨none, t⟩ :=
        MkdirAll_noop cwd _ t (MkdirAll_ok_ne_nil cwd _ s hm)
          (h1t.stat_dir _ (MkdirAll_ok_stat cwd _ s hm))
      have hfile : ∃ c', t.lookup (resolve cwd (Join d f.Name)) = some (Node.file c') := by
        have : (extractZipFile cwd f d s).fs.lookup (resolve cwd (Join d f.Name)) =
            some (Node.file c) := by
          rw [hfs]; exact Finmap.lookup_insert _
        exact (hs1t _).2 c this
      have hct : (Create cwd (Join d f.Name) t).err = none := by
        rw [Create_succeeds cwd _ t hco.1 (h1t.stat_dir _ hco.2.1)]
        rw [nodeAt_of_ne_nil _ _ hne.1]
        obtain ⟨c', hc'⟩ := hfile
        rw [hc']; simp
      have ht := extractZipFile_file_succeeds cwd f d t c hp hd hc hmt hct
      rw [extractFiles_cons_of_ok cwd d f rest t (by rw [ht]), ht]
      apply ih _ _ hok
      intro q
      by_cases hq : q = destLoc cwd d f
      · right
        subst hq
        rw [hfs]
        have e1 : (t.insert (destLoc cwd d f) (Node.file c)).lookup (destLoc cwd d f) =
            some (Node.file c) := Finmap.lookup_insert t
        have e2 : ((MkdirAll cwd (Dir (Join d f.Name)) s).fs.insert (destLoc cwd d f)
            (Node.file c)).lookup (destLoc cwd d f) = some (Node.file c) :=
          Finmap.lookup_insert _
        exact ⟨e1.trans e2.symm, c, e2⟩
      · show (t.insert (destLoc cwd d f) (Node.file c)).lookup q = _ ∨ _
        rw [Finmap.lookup_insert_of_ne _ hq]
        rcases hinv q with h | ⟨h1, c0, h2⟩
        · exact Or.inl h
        · right
          rw [hfs, Finmap.lookup_insert_of_ne _ hq]
          rcases hda q with h3 | h3
          · exact ⟨h1.trans h3.symm, c0, h3.trans h2⟩
          · rw [h3.1] at h2; exact absurd h2 (by simp)

/-! ## Lemmas on `strings.TrimSpace` -/

/-- The model of `strings.TrimSpace` on rows of the test table `trimSpaceTests` of
package `strings`: ASCII white space, the white space U+2000 and U+3000 in UTF-8,
invalid bytes and the rune U+263A, which are kept. -/
theorem TrimSpace_on_trimSpaceTests :
    TrimSpace [] = [] ∧
    TrimSpace "abc".toList = "abc".toList ∧
    TrimSpace " ".toList = [] ∧
    TrimSpace " \t\r\n \t\t\r\r\n\n ".toList = [] ∧
    TrimSpace " \t\r\n x\t\t\r\r\n\n ".toList = "x".toList ∧
    TrimSpace ([' ', Char.ofNat 0xE2, Char.ofNat 0x80, Char.ofNat 0x80] ++
        "\t\r\n x\t\t\r\r\ny\n ".toList ++ [Char.ofNat 0xE3, Char.ofNat 0x80, Char.ofNat 0x80]) =
      "x\t\t\r\r\ny".toList ∧
    TrimSpace "1 \t\r\n2".toList = "1 \t\r\n2".toList ∧
    TrimSpace [' ', 'x', Char.ofNat 0x80] = ['x', Char.ofNat 0x80] ∧
    TrimSpace [' ', 'x', Char.ofNat 0xC0] = ['x', Char.ofNat 0xC0] ∧
    TrimSpace ['x', ' ', Char.ofNat 0xC0, Char.ofNat 0xC0, ' '] =
      ['x', ' ', Char.ofNat 0xC0, Char.ofNat 0xC0] ∧
    TrimSpace ['x', ' ', Char.ofNat 0xC0] = ['x', ' ', Char.ofNat 0xC0] ∧
    TrimSpace ['x', ' ', Char.ofNat 0xC0, ' '] = ['x', ' ', Char.ofNat 0xC0] ∧
    TrimSpace ['x', ' ', Char.ofNat 0xE2, Char.ofNat 0x98, Char.ofNat 0xBA,
        Char.ofNat 0xC0, Char.ofNat 0xC0, ' '] =
      ['x', ' ', Char.ofNat 0xE2, Char.ofNat 0x98, Char.ofNat 0xBA,
        Char.ofNat 0xC0, Char.ofNat 0xC0] ∧
    TrimSpace ['x', ' ', Char.ofNat 0xE2, Char.ofNat 0x98, Char.ofNat 0xBA, ' '] =
      ['x', ' ', Char.ofNat 0xE2, Char.ofNat 0x98, Char.ofNat 0xBA] := by
  decide

theorem trimLeftLoop_suffix (n : Nat) : ∀ s : Str, trimLeftLoop n s <:+ s := by
  induction n with
  | zero => intro s; exact List.nil_suffix
  | succ n ih =>
    intro s
    unfold trimLeftLoop
    split
    · exact List.nil_suffix
    · split
      · exact (ih _).trans (List.drop_suffix _ _)
      · exact List.suffix_refl _

theorem TrimLeftFunc_suffix (s : Str) : TrimLeftFunc s <:+ s := trimLeftLoop_suffix _ s

theorem TrimRightFunc_begins (s : Str) : TrimRightFunc s <+: s := by
  unfold TrimRightFunc
  split
  · exact List.nil_prefix
  · split <;> exact List.take_prefix _ _

theorem trimStart_suffix (s : Str) :
    ∀ t, (trimStart s = Sum.inl t ∨ trimStart s = Sum.inr t) → t <:+ s := by
  induction s with
  | nil =>
    intro t h
    simp [trimStart] at h
    rw [← h]
  | cons c cs ih =>
    intro t h
    unfold trimStart at h
    by_cases h1 : 0x80 ≤ c.toNat
    · simp only [h1, if_true, Sum.inl.injEq, reduceCtorEq, or_false] at h
      rw [← h]
    · simp only [h1, if_false] at h
      by_cases h2 : asciiSpace c.toNat = true
      · simp only [h2, if_true] at h
        exact (ih t h).trans (List.suffix_cons _ _)
      · simp only [h2, Bool.false_eq_true, if_false, reduceCtorEq, Sum.inr.injEq,
          false_or] at h
        rw [← h]

theorem trimStop_begins (r : Str) :
    ∀ u, (trimStop r = Sum.inl u ∨ trimStop r = Sum.inr u) → u <+: r.reverse := by
  induction r with
  | nil =>
    intro u h
    simp [trimStop] at h
    subst h
    exact List.prefix_refl _
  | cons c cs ih =>
    intro u h
    unfold trimStop at h
    by_cases h1 : 0x80 ≤ c.toNat
    · simp only [h1, if_true, Sum.inl.injEq, reduceCtorEq, or_false] at h
      rw [← h]
    · simp only [h1, if_false] at h
      by_cases h2 : asciiSpace c.toNat = true
      · simp only [h2, if_true] at h
        have := ih u h
        rw [List.reverse_cons]
        exact this.trans (List.prefix_append _ _)
      · simp only [h2, Bool.false_eq_true, if_false, reduceCtorEq, Sum.inr.injEq,
          false_or] at h
        rw [← h]

/-- What `strings.TrimSpace` returns is a piece of its argument. -/
theorem TrimSpace_infix (s : Str) : TrimSpace s <:+: s := by
  unfold TrimSpace
  cases h1 : trimStart s with
  | inl t =>
    have ht := trimStart_suffix s t (Or.inl h1)
    exact ((TrimRightFunc_begins _).isInfix.trans (TrimLeftFunc_suffix t).isInfix).trans
      ht.isInfix
  | inr t =>
    have ht := trimStart_suffix s t (Or.inr h1)
    simp only []
    cases h2 : trimStop t.reverse with
    | inl u =>
      have hu := trimStop_begins t.reverse u (Or.inl h2)
      rw [List.reverse_reverse] at hu
      exact ((TrimRightFunc_begins _).isInfix.trans hu.isInfix).trans ht.isInfix
    | inr u =>
      have hu := trimStop_begins t.reverse u (Or.inr h2)
      rw [List.reverse_reverse] at hu
      exact hu.isInfix.trans ht.isInfix

theorem IsSpace_of_asciiSpace (b : Nat) (h : asciiSpace b = true) : IsSpace b = true := by
  have hb : b = 0x09 ∨ b = 0x0A ∨ b = 0x0B ∨ b = 0x0C ∨ b = 0x0D ∨ b = 0x20 := by
    simpa [asciiSpace, or_assoc] using h
  rcases hb with h | h | h | h | h | h <;> subst h <;> decide

theorem DecodeRune_ascii (c : Char) (cs : Str) (h : c.toNat < 0x80) :
    DecodeRuneInString (c :: cs) = (c.toNat, 1) := by
  simp [DecodeRuneInString, h]

/-- A lone byte that is not ASCII decodes with width 1. -/
theorem DecodeRune_single (c : Char) (h : 0x80 ≤ c.toNat) :
    (DecodeRuneInString [c]).2 = 1 := by
  unfold DecodeRuneInString
  have h1 : ¬ c.toNat < 0x80 := by omega
  simp only [h1, if_false]
  split
  · rfl
  · have hlen : ([c] : Str).length < (if c.toNat < 0xE0 then 2 else if c.toNat < 0xF0 then 3 else 4) := by
      simp only [List.length_singleton]
      split
      · omega
      · split <;> omega
    simp only [hlen, if_true]

theorem TrimLeftFunc_self (s : Str) (h : IsSpace (DecodeRuneInString s).1 = false) :
    TrimLeftFunc s = s := by
  unfold TrimLeftFunc
  cases s with
  | nil => rfl
  | cons c cs =>
    simp only [List.length_cons]
    unfold trimLeftLoop
    simp [h]

theorem byteAt_eq_head_drop (s : Str) (i : Nat) :
    byteAt s i = match s.drop i with
      | c :: _ => c.toNat
      | [] => 0 := by
  unfold byteAt
  induction s generalizing i with
  | nil => simp
  | cons c cs ih =>
    cases i with
    | zero => simp
    | succ j => simpa using ih j

theorem lastRuneStart_lt (s : Str) (h : s ≠ []) : lastRuneStart s < s.length := by
  have hpos : 0 < s.length := List.length_pos.2 h
  unfold lastRuneStart
  simp only []
  split
  · rename_i h1
    simp only [Bool.and_eq_true, decide_eq_true_eq] at h1
    omega
  · split
    · exact hpos
    · split
      · omega
      · split
        · exact hpos
        · split
          · omega
          · split
            · exact hpos
            · omega

theorem drop_length_sub_one (s : Str) (h : s ≠ []) :
    ∃ c, s.drop (s.length - 1) = [c] ∧ byteAt s (s.length - 1) = c.toNat := by
  have hl : s.dropLast ++ [s.getLast h] = s := List.dropLast_concat_getLast h
  refine ⟨s.getLast h, ?_, ?_⟩
  · conv_lhs => rw [← hl]
    simp
  · rw [byteAt_eq_head_drop]
    have : s.drop (s.length - 1) = [s.getLast h] := by
      conv_lhs => rw [← hl]
      simp
    rw [this]

/-- The widths `utf8.DecodeLastRuneInString` returns for a string that is not empty. -/
theorem DecodeLastRune_width (s : Str) (h0 : s ≠ []) :
    (byteAt s (s.length - 1) < 0x80 ∧ (DecodeLastRuneInString s).2 = 1) ∨
    (0x80 ≤ byteAt s (s.length - 1) ∧ (DecodeLastRuneInString s).2 = 1) ∨
    (0x80 ≤ byteAt s (s.length - 1) ∧
      lastRuneStart s + (DecodeLastRuneInString s).2 = s.length ∧
      (DecodeLastRuneInString s).2 = (DecodeRuneInString (s.drop (lastRuneStart s))).2) := by
  unfold DecodeLastRuneInString
  rw [if_neg h0]
  by_cases hlast : byteAt s (s.length - 1) < 0x80
  · rw [if_pos hlast]
    exact Or.inl ⟨hlast, rfl⟩
  · rw [if_neg hlast]
    have hge : 0x80 ≤ byteAt s (s.length - 1) := by omega
    by_cases hm : lastRuneStart s + (DecodeRuneInString (s.drop (lastRuneStart s))).2 ≠ s.length
    · simp only []
      rw [if_pos hm]
      exact Or.inr (Or.inl ⟨hge, rfl⟩)
    · simp only []
      rw [if_neg hm]
      have hm' : lastRuneStart s + (DecodeRuneInString (s.drop (lastRuneStart s))).2 =
          s.length := by
        by_contra hc; exact hm hc
      exact Or.inr (Or.inr ⟨hge, hm', rfl⟩)

/-- The function `TrimRightFunc` returns a string as it is when its last rune is not
white space. -/
theorem TrimRightFunc_self (s : Str) (h0 : s ≠ [])
    (h : IsSpace (DecodeLastRuneInString s).1 = false) : TrimRightFunc s = s := by
  have hpos : 0 < s.length := List.length_pos.2 h0
  obtain ⟨n, hn⟩ : ∃ n, s.length = n + 1 := ⟨s.length - 1, by omega⟩
  have hloop : lastIndexLoop s s.length s.length =
      some (s.length - (DecodeLastRuneInString s).2) := by
    conv_lhs => rw [hn]
    unfold lastIndexLoop
    have hne : n + 1 ≠ 0 := by omega
    simp only [hne, if_false]
    rw [← hn, List.take_length]
    simp [h]
  unfold TrimRightFunc
  rw [hloop]
  simp only []
  obtain ⟨cl, hcl, hbl⟩ := drop_length_sub_one s h0
  have hfull : s.length - 1 + 1 = s.length := by omega
  rcases DecodeLastRune_width s h0 with ⟨hlast, hk⟩ | ⟨hge, hk⟩ | ⟨hge, hsum, hk⟩
  · rw [hk]
    have hlt : ¬ 0x80 ≤ byteAt s (s.length - 1) := by omega
    rw [if_neg hlt, hfull, List.take_length]
  · rw [hk, if_pos hge, hcl, DecodeRune_single cl (by rw [← hbl]; exact hge), hfull,
      List.take_length]
  · have hst := lastRuneStart_lt s h0
    have hi : s.length - (DecodeLastRuneInString s).2 = lastRuneStart s := by omega
    rw [hi]
    by_cases hb : 0x80 ≤ byteAt s (lastRuneStart s)
    · rw [if_pos hb, ← hk, hsum, List.take_length]
    · rw [if_neg hb]
      have hd : s.drop (lastRuneStart s) ≠ [] := by
        intro hd
        have := congrArg List.length hd
        simp only [List.length_drop, List.length_nil] at this
        omega
      cases hdr : s.drop (lastRuneStart s) with
      | nil => exact absurd hdr hd
      | cons c cs =>
        have hbc : byteAt s (lastRuneStart s) = c.toNat := by
          rw [byteAt_eq_head_drop, hdr]
        have hw : (DecodeRuneInString (s.drop (lastRuneStart s))).2 = 1 := by
          rw [hdr, DecodeRune_ascii c cs (by omega)]
        rw [hw] at hk
        rw [hk] at hsum
        rw [hsum, List.take_length]

theorem DecodeLastRune_ascii (s : Str) (h0 : s ≠ []) (h : byteAt s (s.length - 1) < 0x80) :
    DecodeLastRuneInString s = (byteAt s (s.length - 1), 1) := by
  unfold DecodeLastRuneInString
  rw [if_neg h0, if_pos h]

/-- The function `strings.TrimSpace` returns a string as it is when the string neither
begins nor ends with white space. -/
theorem TrimSpace_self (s : Str) (h : noSurroundingSpace s = true) : TrimSpace s = s := by
  have hL : IsSpace (DecodeRuneInString s).1 = false := by
    simp only [noSurroundingSpace, Bool.and_eq_true, Bool.not_eq_true'] at h
    exact h.1
  have hR : IsSpace (DecodeLastRuneInString s).1 = false := by
    simp only [noSurroundingSpace, Bool.and_eq_true, Bool.not_eq_true'] at h
    exact h.2
  cases hs : s with
  | nil => rfl
  | cons c cs =>
    have h0 : s ≠ [] := by rw [hs]; simp
    rw [← hs]
    obtain ⟨cl, hcl, hbl⟩ := drop_length_sub_one s h0
    have hrev : s.reverse = cl :: (s.take (s.length - 1)).reverse := by
      conv_lhs => rw [← List.take_append_drop (s.length - 1) s, hcl]
      simp
    unfold TrimSpace
    by_cases hc : 0x80 ≤ c.toNat
    · have h1 : trimStart s = Sum.inl s := by
        rw [hs]; simp [trimStart, hc]
      rw [h1]
      simp only []
      rw [TrimLeftFunc_self s hL, TrimRightFunc_self s h0 hR]
    · have hca : asciiSpace c.toNat = false := by
        cases ha : asciiSpace c.toNat with
        | false => rfl
        | true =>
          have := IsSpace_of_asciiSpace _ ha
          rw [hs, DecodeRune_ascii c cs (by omega)] at hL
          simp only [] at hL
          rw [this] at hL
          exact absurd hL (by simp)
      have h1 : trimStart s = Sum.inr s := by
        rw [hs]; simp [trimStart, hc, hca]
      rw [h1]
      simp only []
      rw [hrev]
      by_cases hl : 0x80 ≤ cl.toNat
      · have h2 : trimStop (cl :: (s.take (s.length - 1)).reverse) =
            Sum.inl (cl :: (s.take (s.length - 1)).reverse).reverse := by
          simp [trimStop, hl]
        rw [h2, ← hrev, List.reverse_reverse]
        simp only []
        exact TrimRightFunc_self s h0 hR
      · have hla : asciiSpace cl.toNat = false := by
          cases ha : asciiSpace cl.toNat with
          | false => rfl
          | true =>
            have := IsSpace_of_asciiSpace _ ha
            rw [DecodeLastRune_ascii s h0 (by rw [hbl]; omega), hbl] at hR
            simp only [] at hR
            rw [this] at hR
            exact absurd hR (by simp)
        have h2 : trimStop (cl :: (s.take (s.length - 1)).reverse) =
            Sum.inr (cl :: (s.take (s.length - 1)).reverse).reverse := by
          simp [trimStop, hl, hla]
        rw [h2, ← hrev, List.reverse_reverse]

/-! ## Lemmas on `download` -/

theorem download_of_failure (net : Net) (cwd : Loc) (url token destPath : Str) (fs : FS)
    (resp : Response) (hm : (MkdirAll cwd (Dir destPath) fs).err = none)
    (hnet : net url token = Except.ok resp) (hs : resp.StatusCode ≠ StatusOK) :
    download net cwd url token destPath fs =
      ⟨some (Err.http resp.StatusCode (TrimSpace (resp.Body.take 4096))),
        (MkdirAll cwd (Dir destPath) fs).fs⟩ := by
  unfold download
  rcases hmk : MkdirAll cwd (Dir destPath) fs with ⟨e1, fs1⟩
  rw [hmk] at hm
  simp only [] at hm
  subst hm
  simp only [hnet, hs, ne_eq, not_false_eq_true, if_true]

theorem download_of_success (net : Net) (cwd : Loc) (url token destPath : Str) (fs : FS)
    (resp : Response) (hm : (MkdirAll cwd (Dir destPath) fs).err = none)
    (hnet : net url token = Except.ok resp) (hs : resp.StatusCode = StatusOK) :
    download net cwd url token destPath fs =
      match Create cwd destPath (MkdirAll cwd (Dir destPath) fs).fs with
      | ⟨some e, fs2⟩ => ⟨some e, fs2⟩
      | ⟨none, fs2⟩ =>
        match resp.readErr with
        | some msg => ⟨some (Err.lib msg), writeAll cwd destPath resp.Body fs2⟩
        | none => ⟨none, writeAll cwd destPath resp.Body fs2⟩ := by
  unfold download
  rcases hmk : MkdirAll cwd (Dir destPath) fs with ⟨e1, fs1⟩
  rw [hmk] at hm
  simp only [] at hm
  subst hm
  simp only [hnet, hs, ne_eq, not_true_eq_false, if_false]

/-- With status 200 the outcome of `download` is the outcome of creating the file:
an I/O error, or no error and the file holds the whole body. -/
theorem download_success_cases (net : Net) (cwd : Loc) (url token destPath : Str) (fs : FS)
    (resp : Response) (hm : (MkdirAll cwd (Dir destPath) fs).err = none)
    (hnet : net url token = Except.ok resp) (hs : resp.StatusCode = StatusOK) :
    (∃ e, (download net cwd url token destPath fs).err = some e ∧ e.isIO = true) ∨
    ((download net cwd url token destPath fs).err = none ∧
      stat (download net cwd url token destPath fs).fs (resolve cwd destPath) =
        some (Node.file resp.Body)) := by
  rw [download_of_success net cwd url token destPath fs resp hm hnet hs]
  have hI := Create_err_isIO cwd destPath (MkdirAll cwd (Dir destPath) fs).fs
  have hW := writeAll_Create cwd destPath resp.Body (MkdirAll cwd (Dir destPath) fs).fs
  have hO := Create_ok cwd destPath (MkdirAll cwd (Dir destPath) fs).fs
  have hN := lookup_ne_dir_of_Create_ok cwd destPath (MkdirAll cwd (Dir destPath) fs).fs
  rcases hc : Create cwd destPath (MkdirAll cwd (Dir destPath) fs).fs with ⟨e2, fs2⟩
  rw [hc] at hI hW hO hN
  cases e2 with
  | some e => exact Or.inl ⟨e, rfl, hI e rfl⟩
  | none =>
    simp only []
    cases hre : resp.readErr with
    | some msg => exact Or.inl ⟨Err.lib msg, rfl, rfl⟩
    | none =>
      right
      refine ⟨rfl, ?_⟩
      simp only []
      rw [hW rfl]
      exact stat_insert_file _ _ _ (hN rfl).1 (hO rfl).2.1

/-! ## Lemmas on the count of extracted files -/

/-- A name that passes the test is written strictly below the location of a
destination directory that does not end in a parent segment. -/
theorem destLoc_inside (cwd : Loc) (d n : Str) (hp : endsInParent d = false)
    (h : passesCheck d n = true) :
    ∃ rest, rest ≠ [] ∧ resolve cwd (Join d n) = resolve cwd d ++ rest := by
  obtain ⟨hd, h0, rest, hr, hJ⟩ := passesCheck_sound d n h
  obtain ⟨l, hl, hne⟩ := canBacktrack_of_not_endsInParent d h0 hp
  have hN := joinElems_normal d n
  rw [hJ] at hN
  have hdd := no_dotdot_after _ rest l hl hne hN.2.2
  have hel : ∀ e ∈ rest, Elem e := fun e he => hN.1 e (List.mem_append_right _ he)
  refine ⟨rest, hr, ?_⟩
  rw [resolve_Join cwd d n hd, hJ, List.foldl_append, ← resolve_eq_components,
    foldl_resolveStep_append _ rest hel hdd]

theorem fileLocs_cons (cwd : Loc) (d : Str) (f : File) (rest : List File) :
    fileLocs cwd d (f :: rest) =
      if f.IsDir = false then destLoc cwd d f :: fileLocs cwd d rest
      else fileLocs cwd d rest := by
  unfold fileLocs
  cases hd : f.IsDir <;> simp [List.filter_cons, hd]

theorem mem_fileLocs_cons_of_mem (cwd : Loc) (d : Str) (f : File) (rest : List File) (p : Loc)
    (h : p ∈ fileLocs cwd d rest) : p ∈ fileLocs cwd d (f :: rest) := by
  rw [fileLocs_cons]
  split
  · exact List.mem_cons_of_mem _ h
  · exact h

/-- A regular file found after an extraction was there before or is at the
destination of a non-directory entry. -/
theorem extractFiles_file_origin (cwd : Loc) (d : Str) (files : List File) (p : Loc) :
    ∀ (s : FS) (c : Str), (extractFiles cwd d files s).fs.lookup p = some (Node.file c) →
      (∃ c0, s.lookup p = some (Node.file c0)) ∨ p ∈ fileLocs cwd d files := by
  induction files with
  | nil => intro s c h; exact Or.inl ⟨c, h⟩
  | cons f rest ih =>
    intro s c h
    have step : ∀ c1, (extractZipFile cwd f d s).fs.lookup p = some (Node.file c1) →
        (∃ c0, s.lookup p = some (Node.file c0)) ∨ p ∈ fileLocs cwd d (f :: rest) := by
      intro c1 h1
      rcases extractZipFile_change cwd f d s p with e | ⟨_, e⟩ | ⟨e1, e2, _⟩
      · exact Or.inl ⟨c1, e.symm.trans h1⟩
      · rw [e] at h1; exact absurd h1 (by simp)
      · right
        rw [fileLocs_cons, if_pos e2, e1]
        exact List.mem_cons_self _ _
    cases he : (extractZipFile cwd f d s).err with
    | none =>
      rw [extractFiles_cons_of_ok cwd d f rest s he] at h
      rcases ih _ c h with ⟨c0, h0⟩ | h0
      · exact step c0 h0
      · exact Or.inr (mem_fileLocs_cons_of_mem cwd d f rest p h0)
    | some e =>
      rw [extractFiles_cons_of_err cwd d f rest s e he] at h
      exact step c h

/-- After an extraction without error, every entry passed the test, and every
non-directory entry is a regular file at its destination. -/
theorem extractFiles_entry_post (cwd : Loc) (d : Str) (files : List File) (f : File) :
    ∀ (s : FS), (extractFiles cwd d files s).err = none → f ∈ files →
      passesCheck d f.Name = true ∧
      (f.IsDir = false →
        ∃ c, stat (extractFiles cwd d files s).fs (destLoc cwd d f) = some (Node.file c)) := by
  induction files with
  | nil => intro s _ hf; exact absurd hf (List.not_mem_nil _)
  | cons g rest ih =>
    intro s hok hf
    have he := extractFiles_cons_ok cwd d g rest s hok
    rw [extractFiles_cons_of_ok cwd d g rest s he] at hok ⊢
    rcases List.mem_cons.1 hf with h | h
    · subst h
      refine ⟨extractZipFile_passes cwd f d s (by rw [he]; simp), ?_⟩
      intro hd
      obtain ⟨c, _, hst⟩ := extractZipFile_file_post cwd f d s he hd
      exact (extractFiles_grows cwd d rest _).stat_file_kind _ c hst
    · exact ih _ hok h

theorem isFileAt_iff (fs : FS) (p : Loc) :
    isFileAt fs p = true ↔ ∃ c, stat fs p = some (Node.file c) := by
  unfold isFileAt
  cases h : stat fs p with
  | none => simp
  | some n =>
    cases n with
    | dir => simp [Node.isFile]
    | file c => simp [Node.isFile]

/-- The regular files the walk finds at or below the destination directory after an
extraction: the destinations of the non-directory entries, when no regular file was
recorded there before. -/
theorem files_below_after_extract (cwd : Loc) (d : Str) (files : List File) (s : FS)
    (hok : (extractFiles cwd d files s).err = none)
    (hp : endsInParent d = false)
    (hfresh : ∀ q c, s.lookup q = some (Node.file c) → ¬ resolve cwd d <+: q) :
    (extractFiles cwd d files s).fs.keys.filter
        (fun p => resolve cwd d <+: p ∧ isFileAt (extractFiles cwd d files s).fs p = true) =
      (fileLocs cwd d files).toFinset := by
  ext p
  simp only [Finset.mem_filter, Finmap.mem_keys, List.mem_toFinset]
  constructor
  · rintro ⟨_, hpre, hfile⟩
    obtain ⟨c, hc⟩ := (isFileAt_iff _ _).1 hfile
    rcases extractFiles_file_origin cwd d files p s c (stat_file_lookup _ _ _ hc) with
      ⟨c0, h0⟩ | h
    · exact absurd hpre (hfresh p c0 h0)
    · exact h
  · intro h
    obtain ⟨f, hf, hfp⟩ := List.mem_map.1 h
    have hfm : f ∈ files := (List.mem_filter.1 hf).1
    have hfd : f.IsDir = false := by
      have := (List.mem_filter.1 hf).2
      simpa using this
    obtain ⟨hpass, hpost⟩ := extractFiles_entry_post cwd d files f s hok hfm
    obtain ⟨c, hc⟩ := hpost hfd
    rw [← hfp]
    refine ⟨?_, ?_, (isFileAt_iff _ _).2 ⟨c, hc⟩⟩
    · exact Finmap.mem_of_lookup_eq_some (stat_file_lookup _ _ _ hc)
    · obtain ⟨rest, _, hr⟩ := destLoc_inside cwd d f.Name hp hpass
      exact ⟨rest, hr.symm⟩

theorem fileLocs_length (cwd : Loc) (d : Str) (files : List File) :
    (fileLocs cwd d files).length = fileCount files := by
  simp [fileLocs, fileCount]

theorem components_of_ordinary (seg : Str) (h : isOrdinary seg = true) :
    components seg = [seg] := by
  have hs : sep ∉ seg := ((isOrdinary_iff seg).1 h).2.2.2
  unfold components cleanElems
  rw [splitSep_of_noSep seg hs]
  simp only [List.foldl_cons, List.foldl_nil]
  rw [cleanStep_ordinary _ _ _ h]
  rfl

theorem isRooted_of_ordinary (seg : Str) (h : isOrdinary seg = true) : isRooted seg = false := by
  obtain ⟨h1, _, _, h4⟩ := (isOrdinary_iff seg).1 h
  cases seg with
  | nil => exact absurd rfl h1
  | cons c cs =>
    simp only [List.mem_cons, not_or] at h4
    simp only [isRooted, List.head?_cons, Option.some.injEq, decide_eq_false_iff_not]
    exact fun hc => h4.1 hc.symm

/-- The components of a directory joined with one ordinary segment. -/
theorem components_Join_ordinary (o seg : Str) (h : isOrdinary seg = true) :
    components (Join o seg) = components o ++ [seg] := by
  have hs : sep ∉ seg := ((isOrdinary_iff seg).1 h).2.2.2
  have hsplit : splitSep seg = [seg] := splitSep_of_noSep seg hs
  by_cases ho : o = []
  · subst ho
    have hseg : seg ≠ [] := ((isOrdinary_iff seg).1 h).1
    have : Join [] seg = Clean seg := by simp [Join, hseg]
    rw [this, components_Clean, components_of_ordinary seg h]
    rfl
  · rw [components_Join o seg ho, joinElems_benign o seg (by simp [hsplit, h]), hsplit]

/-- The location of a directory joined with one ordinary segment. -/
theorem resolve_Join_ordinary (cwd : Loc) (o seg : Str) (h : isOrdinary seg = true) :
    resolve cwd (Join o seg) = resolve cwd o ++ [seg] := by
  obtain ⟨h1, h2, h3, h4⟩ := (isOrdinary_iff seg).1 h
  have hstep : ∀ acc, resolveStep acc seg = acc ++ [seg] :=
    fun acc => resolveStep_elem acc seg ⟨h1, h2, h4⟩ h3
  by_cases ho : o = []
  · subst ho
    have : Join [] seg = Clean seg := by simp [Join, h1]
    rw [this, resolve_eq_components, components_Clean, components_of_ordinary seg h]
    simp only [List.foldl_cons, List.foldl_nil, hstep]
    have e1 : startOf cwd (Clean seg) = cwd := by
      simp [startOf, isRooted_Clean, isRooted_of_ordinary seg h]
    have e2 : resolve cwd [] = cwd := by
      simp [resolve, splitSep, startOf, isRooted, resolveStep]
    rw [e1, e2]
  · rw [resolve_eq_components, components_Join_ordinary o seg h, List.foldl_append]
    simp only [List.foldl_cons, List.foldl_nil, hstep]
    rw [resolve_eq_components cwd o]
    simp [startOf, isRooted_Join o seg ho]

theorem endsInParent_Join_ordinary (o seg : Str) (h : isOrdinary seg = true) :
    endsInParent (Join o seg) = false := by
  have h3 : seg ≠ dotdot := ((isOrdinary_iff seg).1 h).2.2.1
  simp [endsInParent, components_Join_ordinary o seg h, h3]

theorem isOrdinary_build (buildID tail : Str) (hid : sep ∉ buildID) (ht : sep ∉ tail) :
    isOrdinary ("build-".toList ++ buildID ++ tail) = true := by
  rw [isOrdinary_iff]
  refine ⟨by simp, ?_, ?_, ?_⟩
  · intro h
    have := congrArg List.length h
    simp at this
  · intro h
    have := congrArg List.length h
    simp [dotdot] at this
  · intro h
    rcases List.mem_append.1 h with h | h
    · rcases List.mem_append.1 h with h | h
      · revert h; decide
      · exact hid h
    · exact ht h

theorem nodeAt_erase_of_ne (fs : FS) (z q : Loc) (h : q ≠ z) :
    nodeAt (fs.erase z) q = nodeAt fs q := by
  unfold nodeAt
  by_cases h0 : q = []
  · simp [h0]
  · simp [h0, Finmap.lookup_erase_ne h]

/-- Removing a node changes nothing for the locations that are not at or below it. -/
theorem stat_erase (fs : FS) (z p : Loc) (h : ¬ z <+: p) :
    stat (fs.erase z) p = stat fs p := by
  have hq : ∀ q, q <+: p → q ≠ z := by
    intro q hq hz
    exact h (hz ▸ hq)
  have hr : reachable (fs.erase z) p = reachable fs p := by
    rw [Bool.eq_iff_iff, reachable_iff, reachable_iff]
    constructor
    · intro h1 q hqp hne
      rw [← nodeAt_erase_of_ne fs z q (hq q hqp)]
      exact h1 q hqp hne
    · intro h1 q hqp hne
      rw [nodeAt_erase_of_ne fs z q (hq q hqp)]
      exact h1 q hqp hne
  unfold stat
  rw [hr, nodeAt_erase_of_ne fs z p (hq p (List.prefix_refl _))]

theorem Remove_fs (cwd : Loc) (path : Str) (fs : FS) :
    (Remove cwd path fs).fs = fs ∨ (Remove cwd path fs).fs = fs.erase (resolve cwd path) := by
  unfold Remove
  simp only []
  split
  · exact Or.inr rfl
  · split
    · exact Or.inl rfl
    · exact Or.inr rfl
  · exact Or.inl rfl

/-- The count of the walk below `root` does not see the removal of a node that is not
at or above a location below `root`. -/
theorem walkCount_erase (cwd : Loc) (root : Str) (fs : FS) (z : Loc)
    (h : ∀ p, resolve cwd root <+: p → ¬ z <+: p) :
    walkCount cwd root (fs.erase z) = walkCount cwd root fs := by
  unfold walkCount
  congr 1
  ext p
  simp only [Finset.mem_filter, Finmap.mem_keys, Finmap.mem_erase]
  constructor
  · rintro ⟨⟨_, hm⟩, hpre, hf⟩
    refine ⟨hm, hpre, ?_⟩
    unfold isFileAt at hf ⊢
    rwa [stat_erase fs z p (h p hpre)] at hf
  · rintro ⟨hm, hpre, hf⟩
    refine ⟨⟨?_, hm⟩, hpre, ?_⟩
    · intro hz
      exact h p hpre (hz ▸ List.prefix_refl _)
    · unfold isFileAt at hf ⊢
      rwa [stat_erase fs z p (h p hpre)]

theorem walkCount_Remove (cwd : Loc) (root path : Str) (fs : FS)
    (h : ∀ p, resolve cwd root <+: p → ¬ resolve cwd path <+: p) :
    walkCount cwd root (Remove cwd path fs).fs = walkCount cwd root fs := by
  rcases Remove_fs cwd path fs with e | e
  · rw [e]
  · rw [e]; exact walkCount_erase cwd root fs _ h

/-- Two different names in the same directory: nothing is below both. -/
theorem not_below_sibling (base : Loc) (a b : Str) (hab : a ≠ b) :
    ∀ p, base ++ [a] <+: p → ¬ base ++ [b] <+: p := by
  intro p h1 h2
  have h3 := List.prefix_of_prefix_length_le h1 h2 (by simp)
  have h4 := h3.eq_of_length (by simp)
  have := List.append_cancel_left h4
  simp only [List.cons.injEq, and_true] at this
  exact hab this

theorem download_ok_mkdir (net : Net) (cwd : Loc) (url token destPath : Str) (fs : FS)
    (h : (download net cwd url token destPath fs).err = none) :
    (MkdirAll cwd (Dir destPath) fs).err = none := by
  unfold download at h
  rcases hmk : MkdirAll cwd (Dir destPath) fs with ⟨e1, fs1⟩
  rw [hmk] at h
  cases e1 with
  | none => rfl
  | some e => simp at h

/-- The state a successful `download` leaves: the parent directories made and the
body written at the destination. -/
theorem download_ok_fs (net : Net) (cwd : Loc) (url token destPath : Str) (fs : FS)
    (resp : Response) (hnet : net url token = Except.ok resp)
    (h : (download net cwd url token destPath fs).err = none) :
    (download net cwd url token destPath fs).fs =
      (MkdirAll cwd (Dir destPath) fs).fs.insert (resolve cwd destPath) (Node.file resp.Body) ∧
    stat (download net cwd url token destPath fs).fs (resolve cwd destPath) =
      some (Node.file resp.Body) := by
  have hm := download_ok_mkdir net cwd url token destPath fs h
  have hs : resp.StatusCode = StatusOK := by
    by_contra hs
    rw [download_of_failure net cwd url token destPath fs resp hm hnet hs] at h
    simp at h
  have hst : stat (download net cwd url token destPath fs).fs (resolve cwd destPath) =
      some (Node.file resp.Body) := by
    rcases download_success_cases net cwd url token destPath fs resp hm hnet hs with
      ⟨e, he, _⟩ | ⟨_, h2⟩
    · rw [he] at h; simp at h
    · exact h2
  refine ⟨?_, hst⟩
  rw [download_of_success net cwd url token destPath fs resp hm hnet hs] at h ⊢
  have hW := writeAll_Create cwd destPath resp.Body (MkdirAll cwd (Dir destPath) fs).fs
  rcases hc : Create cwd destPath (MkdirAll cwd (Dir destPath) fs).fs with ⟨e2, fs2⟩
  rw [hc] at h hW
  cases e2 with
  | some e => simp at h
  | none =>
    simp only [] at h ⊢
    cases hre : resp.readErr with
    | some msg => rw [hre] at h; simp at h
    | none => exact hW rfl

/-- What a run without error went through. -/
theorem run_ok (tokenEnv urlEnv : Str) (net : Net) (unzip : Str → Except Err (List File))
    (cwd : Loc) (buildID : Str) (more : List Str) (fs : FS)
    (h : (run tokenEnv urlEnv net unzip cwd (buildID :: more) fs).err = none) :
    (download net cwd (artifactsURL urlEnv buildID) tokenEnv
      (zipPathOf (outDirOf more) buildID) fs).err = none ∧
    (extractZip cwd (OpenReader unzip cwd (zipPathOf (outDirOf more) buildID)
        (download net cwd (artifactsURL urlEnv buildID) tokenEnv
          (zipPathOf (outDirOf more) buildID) fs).fs)
      (extractDirOf (outDirOf more) buildID)
      (download net cwd (artifactsURL urlEnv buildID) tokenEnv
        (zipPathOf (outDirOf more) buildID) fs).fs).err = none ∧
    (run tokenEnv urlEnv net unzip cwd (buildID :: more) fs).count =
      some (walkCount cwd (extractDirOf (outDirOf more) buildID)
        (Remove cwd (zipPathOf (outDirOf more) buildID)
          (extractZip cwd (OpenReader unzip cwd (zipPathOf (outDirOf more) buildID)
              (download net cwd (artifactsURL urlEnv buildID) tokenEnv
                (zipPathOf (outDirOf more) buildID) fs).fs)
            (extractDirOf (outDirOf more) buildID)
            (download net cwd (artifactsURL urlEnv buildID) tokenEnv
              (zipPathOf (outDirOf more) buildID) fs).fs).fs).fs) := by
  unfold run at h ⊢
  simp only [] at h ⊢
  by_cases ht : tokenEnv = []
  · simp [ht] at h
  · simp only [ht, if_false] at h ⊢
    rcases hd : download net cwd (artifactsURL urlEnv buildID) tokenEnv
      (zipPathOf (outDirOf more) buildID) fs with ⟨e1, fs1⟩
    rw [hd] at h
    cases e1 with
    | some e => simp at h
    | none =>
      simp only [] at h ⊢
      rcases hx : extractZip cwd (OpenReader unzip cwd (zipPathOf (outDirOf more) buildID) fs1)
        (extractDirOf (outDirOf more) buildID) fs1 with ⟨e2, fs2⟩
      rw [hx] at h
      cases e2 with
      | some e => simp at h
      | none => exact ⟨trivial, rfl, rfl⟩

/-! ## The claims -/

/-- C1, at the failing input.  With the destination directory `..` the entry name
`../a` passes the test of `extractZipFile`, although the joined path `../../a` is not
lexically inside the directory: with the working directory `/h/u` the destination is
`/h` and the file is written at `/a`.  The program gets there with the build id
`x/../..`, for which the extraction directory is `..`. -/
theorem extractZipFile_slips_out_of_parent_destDir :
    passesCheck "..".toList entrySlip.Name = true ∧
    Join "..".toList entrySlip.Name = "../../a".toList ∧
    lexicallyInside "..".toList (Join "..".toList entrySlip.Name) = false ∧
    (extractZipFile cwdSample entrySlip "..".toList ∅).err = none ∧
    stat (extractZipFile cwdSample entrySlip "..".toList ∅).fs ["a".toList] =
      some (Node.file "x".toList) ∧
    extractDirOf (outDirOf []) "x/../..".toList = "..".toList ∧
    (run "tok".toList [] netOK unzipSlip cwdSample ["x/../..".toList] ∅).err = none ∧
    stat (run "tok".toList [] netOK unzipSlip cwdSample ["x/../..".toList] ∅).fs
      ["a".toList] = some (Node.file "x".toList) := by
  decide

/-- C2 as stated fails: in the archive `.`, `../escape.txt` extracted to `d`, the
second entry is the first one whose destination is outside `d` and the first entry
meets no I/O error, yet `extractZip` returns the path-safety error of the first entry,
whose destination is `d` itself, and not that of `../escape.txt`. -/
theorem extractZip_reports_entry_before_first_escape :
    within "d".toList (Join "d".toList ".".toList) = true ∧
    within "d".toList (Join "d".toList "../escape.txt".toList) = false ∧
    (extractZip [] (Except.ok [⟨".".toList, false, Payload.data []⟩]) "d".toList ∅).ioError
      = false ∧
    (extractZip [] (Except.ok [⟨".".toList, false, Payload.data []⟩,
        ⟨"../escape.txt".toList, false, Payload.data "x".toList⟩]) "d".toList ∅).err
      = some (Err.invalidPath ".".toList) ∧
    (extractZip [] (Except.ok [⟨".".toList, false, Payload.data []⟩,
        ⟨"../escape.txt".toList, false, Payload.data "x".toList⟩]) "d".toList ∅).err
      ≠ some (Err.invalidPath "../escape.txt".toList) := by
  decide

/-- C2, amended.  Below a destination directory that does not end in a parent
segment: when the entries before an entry extract without error and the joined path of
that entry is outside the directory, `extractZip` returns the path-safety error naming
that entry, and leaves the file system as the entries before it left it.  The archive
with the single entry `../escape.txt` leaves the file system unchanged. -/
theorem extractZip_aborts_at_escape (cwd : Loc) (d : Str) (before : List File) (f : File)
    (after : List File) (fs : FS)
    (hp : endsInParent d = false)
    (hk : within d (Join d f.Name) = false)
    (hpre : (extractZip cwd (Except.ok before) d fs).err = none) :
    extractZip cwd (Except.ok (before ++ f :: after)) d fs =
      ⟨some (Err.invalidPath f.Name), (extractZip cwd (Except.ok before) d fs).fs⟩ ∧
    ∀ (m : Bool) (pl : Payload) (fs0 : FS),
      extractZip cwd (Except.ok [⟨"../escape.txt".toList, m, pl⟩]) d fs0 =
        ⟨some (Err.invalidPath "../escape.txt".toList), fs0⟩ := by
  constructor
  · have hr := rejected_of_not_within d f.Name hp hk
    show extractFiles cwd d (before ++ f :: after) fs = _
    rw [extractFiles_append cwd d before (f :: after) fs hpre]
    have he := extractZipFile_rejected cwd f d (extractFiles cwd d before fs).fs hr
    rw [extractFiles_cons_of_err cwd d f after _ (Err.invalidPath f.Name) (by rw [he]), he]
    rfl
  · intro m pl fs0
    have he := extractZipFile_rejected cwd ⟨"../escape.txt".toList, m, pl⟩ d fs0
      (not_passes_escape d hp)
    show extractFiles cwd d [_] fs0 = _
    rw [extractFiles_cons_of_err cwd d _ [] _ (Err.invalidPath "../escape.txt".toList)
      (by rw [he]), he]

/-- C2, amended, on the archive `a.txt`, `../escape.txt`, `b.txt` extracted to `out`. -/
theorem extractZip_aborts_at_escape_witness :
    (extractZip [] (Except.ok [⟨"a.txt".toList, false, Payload.data "hello".toList⟩,
        ⟨"../escape.txt".toList, false, Payload.data "x".toList⟩,
        ⟨"b.txt".toList, false, Payload.data "y".toList⟩]) "out".toList ∅).err =
      some (Err.invalidPath "../escape.txt".toList) :=
  congrArg Outcome.err (extractZip_aborts_at_escape [] "out".toList
    [⟨"a.txt".toList, false, Payload.data "hello".toList⟩]
    ⟨"../escape.txt".toList, false, Payload.data "x".toList⟩
    [⟨"b.txt".toList, false, Payload.data "y".toList⟩] ∅
    (by decide) (by decide) (by decide)).1

/-- C3 as stated fails: below `dest` the absolute name `/etc/passwd` and the name
`../dest/a.txt`, which begins with a traversal segment, are both accepted, and their
files are written inside `dest`. -/
theorem extractZipFile_accepts_absolute_and_traversal_names :
    (extractZipFile [] ⟨"/etc/passwd".toList, false, Payload.data "x".toList⟩
      "dest".toList ∅).err = none ∧
    stat (extractZipFile [] ⟨"/etc/passwd".toList, false, Payload.data "x".toList⟩
      "dest".toList ∅).fs ["dest".toList, "etc".toList, "passwd".toList] =
        some (Node.file "x".toList) ∧
    (extractZipFile [] ⟨"../dest/a.txt".toList, false, Payload.data "y".toList⟩
      "dest".toList ∅).err = none ∧
    stat (extractZipFile [] ⟨"../dest/a.txt".toList, false, Payload.data "y".toList⟩
      "dest".toList ∅).fs ["dest".toList, "a.txt".toList] = some (Node.file "y".toList) := by
  decide

/-- C3, amended.  An entry name that is absolute or begins with a traversal segment
is judged by the test on the joined path alone: `extractZipFile` returns the
path-safety error exactly when the joined path does not begin with the cleaned
destination directory and a separator, and it then changes nothing.  An absolute name
is joined below a non-empty destination directory like the name without its leading
separator. -/
theorem extractZipFile_absolute_or_traversal_name (cwd : Loc) (d : Str) (f : File) (fs : FS)
    (_ : isRooted f.Name = true ∨ (splitSep f.Name).head? = some dotdot) :
    ((extractZipFile cwd f d fs).err = some (Err.invalidPath f.Name) ↔
      HasPrefix (Join d f.Name) (Clean d ++ [sep]) = false) ∧
    (HasPrefix (Join d f.Name) (Clean d ++ [sep]) = false →
      (extractZipFile cwd f d fs).fs = fs) ∧
    (d ≠ [] → isRooted f.Name = true →
      Join d f.Name = Join d f.Name.tail ∧
      HasPrefix (Join d f.Name) (Clean d ++ [sep]) =
        HasPrefix (Join d f.Name.tail) (Clean d ++ [sep])) := by
  refine ⟨extractZipFile_invalid_iff cwd f d fs, ?_, ?_⟩
  · intro h
    rw [extractZipFile_rejected cwd f d fs h]
  · intro hd hr
    have hn : f.Name = sep :: f.Name.tail := by
      cases hN : f.Name with
      | nil => rw [hN] at hr; simp [isRooted] at hr
      | cons c cs =>
        rw [hN] at hr
        simp only [isRooted, List.head?_cons, Option.some.injEq, decide_eq_true_eq] at hr
        rw [hr]; rfl
    have hj : Join d f.Name = Join d f.Name.tail := by
      conv_lhs => rw [hn]
      exact Join_absolute d _ hd
    exact ⟨hj, by rw [hj]⟩

/-- C3, amended, on the name `/etc/passwd` below `dest`: it passes the test like
`etc/passwd`. -/
theorem extractZipFile_absolute_or_traversal_name_witness :
    Join "dest".toList "/etc/passwd".toList = Join "dest".toList "etc/passwd".toList ∧
    HasPrefix (Join "dest".toList "/etc/passwd".toList) (Clean "dest".toList ++ [sep]) =
      HasPrefix (Join "dest".toList "etc/passwd".toList) (Clean "dest".toList ++ [sep]) :=
  (extractZipFile_absolute_or_traversal_name [] "dest".toList
    ⟨"/etc/passwd".toList, false, Payload.data "x".toList⟩ ∅ (Or.inl (by decide))).2.2
    (by decide) (by decide)

/-- C4 as stated fails: the empty name, `.` and `./` give a joined path equal to the
cleaned destination directory `d`, and `extractZipFile` rejects each of them with the
path-safety error. -/
theorem extractZipFile_rejects_destination_itself :
    Join "d".toList [] = Clean "d".toList ∧
    (extractZipFile [] ⟨[], false, Payload.data []⟩ "d".toList ∅).err =
      some (Err.invalidPath []) ∧
    Join "d".toList ".".toList = Clean "d".toList ∧
    (extractZipFile [] ⟨".".toList, true, Payload.data []⟩ "d".toList ∅).err =
      some (Err.invalidPath ".".toList) ∧
    Join "d".toList "./".toList = Clean "d".toList ∧
    (extractZipFile [] ⟨"./".toList, false, Payload.data []⟩ "d".toList ∅).err =
      some (Err.invalidPath "./".toList) := by
  decide

/-- C4, amended.  The acceptance rule of the path check: `extractZipFile` returns the
path-safety error if and only if the joined path does not begin with the cleaned
destination directory followed by a separator.  A joined path equal to the cleaned
destination directory is rejected, and so is every entry with the empty name or named
`.` or `./`. -/
theorem extractZipFile_path_check_exact (cwd : Loc) (d : Str) (f : File) (fs : FS) :
    ((extractZipFile cwd f d fs).err = some (Err.invalidPath f.Name) ↔
      HasPrefix (Join d f.Name) (Clean d ++ [sep]) = false) ∧
    (Join d f.Name = Clean d →
      (extractZipFile cwd f d fs).err = some (Err.invalidPath f.Name)) ∧
    (f.Name = [] ∨ f.Name = ['.'] ∨ f.Name = ['.', sep] →
      (extractZipFile cwd f d fs).err = some (Err.invalidPath f.Name)) := by
  refine ⟨extractZipFile_invalid_iff cwd f d fs, ?_, ?_⟩
  · intro h
    exact (extractZipFile_invalid_iff cwd f d fs).2 (not_passes_of_Join_eq_Clean d _ h)
  · intro h
    exact (extractZipFile_invalid_iff cwd f d fs).2 (not_passes_self_names d _ h)

/-- C5 as stated fails: with the destination directory `.` or `/` the benign name
`a.txt` is rejected with the path-safety error. -/
theorem extractZipFile_rejects_benign_name_in_dot_and_root :
    (extractZipFile [] ⟨"a.txt".toList, false, Payload.data "x".toList⟩ ".".toList ∅).err =
      some (Err.invalidPath "a.txt".toList) ∧
    (extractZipFile [] ⟨"a.txt".toList, false, Payload.data "x".toList⟩ "/".toList ∅).err =
      some (Err.invalidPath "a.txt".toList) := by
  decide

/-- C5, amended.  Below a destination directory whose cleaned form is neither `.` nor
`/`, a non-directory entry whose name consists of ordinary segments and whose content
is `c`: when no I/O operation fails, `extractZipFile` returns no error, the joined path
is the cleaned directory, a separator and the name, and afterwards the file at the
joined path has content exactly `c`. -/
theorem extractZipFile_benign_name (cwd : Loc) (d : Str) (f : File) (c : Str) (fs : FS)
    (hd : Clean d ≠ ['.'] ∧ Clean d ≠ [sep])
    (hn : (splitSep f.Name).all isOrdinary = true)
    (hfile : f.IsDir = false)
    (hc : f.payload = Payload.data c)
    (hio : (extractZipFile cwd f d fs).ioError = false) :
    (extractZipFile cwd f d fs).err = none ∧
    Join d f.Name = Clean d ++ sep :: f.Name ∧
    stat (extractZipFile cwd f d fs).fs (resolve cwd (Join d f.Name)) =
      some (Node.file c) := by
  have h0 : components d ≠ [] := by
    intro h
    rcases (render_eq_dot_or_sep_iff d).1 h with h' | h'
    · exact hd.1 h'
    · exact hd.2 h'
  obtain ⟨hpass, hjoin⟩ := passesCheck_benign d f.Name h0 hn
  have herr : (extractZipFile cwd f d fs).err = none := by
    cases he : (extractZipFile cwd f d fs).err with
    | none => rfl
    | some e =>
      rcases extractZipFile_err_cases cwd f d fs e he with h1 | h1
      · rw [hpass] at h1; exact absurd h1.1 (by simp)
      · simp [Outcome.ioError, he, h1.2] at hio
  refine ⟨herr, hjoin, ?_⟩
  obtain ⟨_, c', hc', _, hcr, hfs⟩ := extractZipFile_ok_file cwd f d fs herr hfile
  have hcc : c' = c := by
    rw [hc] at hc'
    exact (Payload.data.inj hc').symm
  subst hcc
  have hco := Create_ok _ _ _ hcr
  have hl0 : resolve cwd (Join d f.Name) ≠ [] := by
    intro h
    apply hco.2.2.1
    rw [h]; exact nodeAt_root _
  rw [hfs]
  exact stat_insert_file _ _ _ hl0 hco.2.1

/-- C5, amended, on the entry `sub/b.txt` with content `world` extracted to `out`. -/
theorem extractZipFile_benign_name_witness :
    stat (extractZipFile [] ⟨"sub/b.txt".toList, false, Payload.data "world".toList⟩
      "out".toList ∅).fs (resolve [] (Join "out".toList "sub/b.txt".toList)) =
        some (Node.file "world".toList) :=
  (extractZipFile_benign_name [] "out".toList
    ⟨"sub/b.txt".toList, false, Payload.data "world".toList⟩ "world".toList ∅
    (by decide) (by decide) (by decide) rfl (by decide)).2.2

/-- C6 as stated fails: the archive with two entries named `a.txt`, the first with
content `hello` and the second with content `world`, extracts without error, and the
file `out/a.txt` then holds `world`, not the content of the first entry. -/
theorem extractZip_duplicate_name_keeps_last :
    (extractZip [] (Except.ok [⟨"a.txt".toList, false, Payload.data "hello".toList⟩,
        ⟨"a.txt".toList, false, Payload.data "world".toList⟩]) "out".toList ∅).err = none ∧
    stat (extractZip [] (Except.ok [⟨"a.txt".toList, false, Payload.data "hello".toList⟩,
        ⟨"a.txt".toList, false, Payload.data "world".toList⟩]) "out".toList ∅).fs
      (resolve [] (Join "out".toList "a.txt".toList)) = some (Node.file "world".toList) ∧
    stat (extractZip [] (Except.ok [⟨"a.txt".toList, false, Payload.data "hello".toList⟩,
        ⟨"a.txt".toList, false, Payload.data "world".toList⟩]) "out".toList ∅).fs
      (resolve [] (Join "out".toList "a.txt".toList)) ≠ some (Node.file "hello".toList) := by
  decide

/-- C6, amended.  After `extractZip` returned no error, for every entry `f` of the
archive: a directory entry exists as a directory at its joined path; a non-directory
entry exists as a regular file at its joined path, every directory above that path
exists as a directory, and the bytes of the file are the content of `f` when no later
non-directory entry is written to the same path. -/
theorem extractZip_postcondition (cwd : Loc) (d : Str) (before : List File) (f : File)
    (after : List File) (fs : FS)
    (hok : (extractZip cwd (Except.ok (before ++ f :: after)) d fs).err = none) :
    (f.IsDir = true →
      stat (extractZip cwd (Except.ok (before ++ f :: after)) d fs).fs
        (resolve cwd (Join d f.Name)) = some Node.dir) ∧
    (f.IsDir = false → ∃ c, f.payload = Payload.data c ∧
      (∃ c', stat (extractZip cwd (Except.ok (before ++ f :: after)) d fs).fs
        (resolve cwd (Join d f.Name)) = some (Node.file c')) ∧
      (∀ q, q <+: resolve cwd (Join d f.Name) → q ≠ resolve cwd (Join d f.Name) →
        stat (extractZip cwd (Except.ok (before ++ f :: after)) d fs).fs q = some Node.dir) ∧
      ((∀ g ∈ after, g.IsDir = false →
          resolve cwd (Join d g.Name) ≠ resolve cwd (Join d f.Name)) →
        stat (extractZip cwd (Except.ok (before ++ f :: after)) d fs).fs
          (resolve cwd (Join d f.Name)) = some (Node.file c))) := by
  have hok' : (extractFiles cwd d (before ++ f :: after) fs).err = none := hok
  have hpre := extractFiles_append_ok cwd d before (f :: after) fs hok'
  have hsplit := extractFiles_append cwd d before (f :: after) fs hpre
  have hfs : (extractZip cwd (Except.ok (before ++ f :: after)) d fs).fs =
      (extractFiles cwd d (f :: after) (extractFiles cwd d before fs).fs).fs := by
    show (extractFiles cwd d (before ++ f :: after) fs).fs = _
    rw [hsplit]
  rw [hsplit] at hok'
  have he := extractFiles_cons_ok cwd d f after _ hok'
  have hrest := extractFiles_cons_of_ok cwd d f after _ he
  rw [hfs, hrest]
  have hg := extractFiles_grows cwd d after
    (extractZipFile cwd f d (extractFiles cwd d before fs).fs).fs
  constructor
  · intro hd
    exact hg.stat_dir _ (extractZipFile_dir_post cwd f d _ he hd)
  · intro hd
    obtain ⟨c, hc, hst⟩ := extractZipFile_file_post cwd f d _ he hd
    have hkind := hg.stat_file_kind _ c hst
    refine ⟨c, hc, hkind, ?_, ?_⟩
    · intro q hq hne
      obtain ⟨c', hc'⟩ := hkind
      exact stat_above _ _ q _ hc' hq hne
    · intro hlast
      have hk := extractFiles_keeps cwd d after (destLoc cwd d f) c _
        (stat_file_lookup _ _ _ hst) hlast
      exact hg.stat_file _ c hst (hk.trans (stat_file_lookup _ _ _ hst).symm)

/-- C6, amended, on the archive `a.txt` = `hello`, `sub/b.txt` = `world`, directory
`sub/empty/`, extracted to `out`: the file `out/sub/b.txt` holds `world`. -/
theorem extractZip_postcondition_witness :
    stat (extractZip [] (Except.ok ([entryA] ++ entryB :: [entryEmpty])) outDir ∅).fs
      (resolve [] (Join outDir entryB.Name)) = some (Node.file "world".toList) :=
  match (extractZip_postcondition [] outDir [entryA] entryB [entryEmpty] ∅
      (by decide)).2 (by decide) with
  | ⟨_, hc, _, _, h⟩ => Payload.data.inj hc ▸ h (by decide)

/-- C7 as stated fails: for the archive with two entries named `a.txt` (N = 2), `run`
succeeds and reports 1; for the archive with the one entry `a.txt` (N = 1), run on a
file system in which `out/build-1/old.txt` exists, it reports 2. -/
theorem run_count_differs_from_entry_count :
    fileCount [entryA, entryA] = 2 ∧
    (run "tok".toList [] netOK unzipTwice [] argsSample ∅).err = none ∧
    (run "tok".toList [] netOK unzipTwice [] argsSample ∅).count = some 1 ∧
    fileCount [entryA] = 1 ∧
    (run "tok".toList [] netOK unzipOne [] argsSample fsOld).err = none ∧
    (run "tok".toList [] netOK unzipOne [] argsSample fsOld).count = some 2 := by
  decide

/-- C7, amended.  When the build id has no path separator, no regular file is
recorded at or below the extraction directory before the run, and no two
non-directory entries of the archive are written to the same location, a run without
error reports exactly the number of non-directory entries of the archive it
downloaded. -/
theorem run_reports_file_count (tokenEnv urlEnv : Str) (net : Net)
    (unzip : Str → Except Err (List File)) (cwd : Loc) (buildID : Str) (more : List Str)
    (fs : FS) (resp : Response) (files : List File)
    (hid : sep ∉ buildID)
    (hnet : net (artifactsURL urlEnv buildID) tokenEnv = Except.ok resp)
    (hunzip : unzip resp.Body = Except.ok files)
    (hfresh : ∀ q c, fs.lookup q = some (Node.file c) →
      ¬ resolve cwd (extractDirOf (outDirOf more) buildID) <+: q)
    (hdistinct : (fileLocs cwd (extractDirOf (outDirOf more) buildID) files).Nodup)
    (hrun : (run tokenEnv urlEnv net unzip cwd (buildID :: more) fs).err = none) :
    (run tokenEnv urlEnv net unzip cwd (buildID :: more) fs).count =
      some (fileCount files) := by
  obtain ⟨hdl, hex, hcount⟩ := run_ok tokenEnv urlEnv net unzip cwd buildID more fs hrun
  rw [hcount]
  -- the two paths are different names in the output directory
  have hseg : isOrdinary ("build-".toList ++ buildID) = true := by
    have := isOrdinary_build buildID [] hid (by simp)
    simpa using this
  have hzseg : isOrdinary ("build-".toList ++ buildID ++ "-artifacts.zip".toList) = true :=
    isOrdinary_build buildID _ hid (by decide)
  have hE : resolve cwd (extractDirOf (outDirOf more) buildID) =
      resolve cwd (outDirOf more) ++ ["build-".toList ++ buildID] :=
    resolve_Join_ordinary cwd _ _ hseg
  have hZ : resolve cwd (zipPathOf (outDirOf more) buildID) =
      resolve cwd (outDirOf more) ++ ["build-".toList ++ buildID ++ "-artifacts.zip".toList] :=
    resolve_Join_ordinary cwd _ _ hzseg
  have hne : "build-".toList ++ buildID ≠
      "build-".toList ++ buildID ++ "-artifacts.zip".toList := by
    intro h
    have := congrArg List.length h
    simp at this
  have hsib : ∀ p, resolve cwd (extractDirOf (outDirOf more) buildID) <+: p →
      ¬ resolve cwd (zipPathOf (outDirOf more) buildID) <+: p := by
    rw [hE, hZ]
    exact not_below_sibling _ _ _ hne
  have hpar : endsInParent (extractDirOf (outDirOf more) buildID) = false :=
    endsInParent_Join_ordinary _ _ hseg
  -- the state after the download
  obtain ⟨hfs1, hst1⟩ := download_ok_fs net cwd (artifactsURL urlEnv buildID) tokenEnv
    (zipPathOf (outDirOf more) buildID) fs resp hnet hdl
  have hopen : OpenReader unzip cwd (zipPathOf (outDirOf more) buildID)
      (download net cwd (artifactsURL urlEnv buildID) tokenEnv
        (zipPathOf (outDirOf more) buildID) fs).fs = Except.ok files := by
    unfold OpenReader
    rw [hst1]
    exact hunzip
  rw [hopen] at hex ⊢
  have hfresh1 : ∀ q c, (download net cwd (artifactsURL urlEnv buildID) tokenEnv
      (zipPathOf (outDirOf more) buildID) fs).fs.lookup q = some (Node.file c) →
      ¬ resolve cwd (extractDirOf (outDirOf more) buildID) <+: q := by
    intro q c hq hpre
    by_cases hqz : q = resolve cwd (zipPathOf (outDirOf more) buildID)
    · exact hsib q hpre (hqz ▸ List.prefix_refl _)
    · rw [hfs1, Finmap.lookup_insert_of_ne _ hqz] at hq
      rcases MkdirAll_dirsAdded cwd (Dir (zipPathOf (outDirOf more) buildID)) fs q with
        h | ⟨_, h⟩
      · exact hfresh q c (h.symm.trans hq) hpre
      · rw [h] at hq; exact absurd hq (by simp)
  rw [walkCount_Remove cwd _ _ _ hsib]
  have hset := files_below_after_extract cwd (extractDirOf (outDirOf more) buildID) files _
    hex hpar hfresh1
  show some (Finset.card _) = _
  have hset' : (extractZip cwd (Except.ok files) (extractDirOf (outDirOf more) buildID)
      (download net cwd (artifactsURL urlEnv buildID) tokenEnv
        (zipPathOf (outDirOf more) buildID) fs).fs).fs.keys.filter
        (fun p => resolve cwd (extractDirOf (outDirOf more) buildID) <+: p ∧
          isFileAt (extractZip cwd (Except.ok files) (extractDirOf (outDirOf more) buildID)
            (download net cwd (artifactsURL urlEnv buildID) tokenEnv
              (zipPathOf (outDirOf more) buildID) fs).fs).fs p = true) =
      (fileLocs cwd (extractDirOf (outDirOf more) buildID) files).toFinset := hset
  rw [hset', List.toFinset_card_of_nodup hdistinct, fileLocs_length]

/-- C7, amended, on the archive `a.txt`, `sub/b.txt`, `sub/empty/` and the arguments
`1 out`: the run reports 2. -/
theorem run_reports_file_count_witness :
    (run "tok".toList [] netOK unzipSample [] argsSample ∅).count = some 2 :=
  run_reports_file_count "tok".toList [] netOK unzipSample [] "1".toList ["out".toList] ∅
    ⟨200, "ZIP".toList, none⟩ [entryA, entryB, entryEmpty] (by decide) rfl rfl
    (fun q c h => absurd h (by simp)) (by decide) (by decide)

/-- C8.  Idempotence of extraction: when `extractZip` returns no error on a file
system `fs` and leaves `fs'`, then `extractZip` on the same archive and destination
directory, started from `fs'`, returns no error and leaves exactly `fs'` again. -/
theorem extractZip_idempotent (cwd : Loc) (d : Str) (files : List File) (fs : FS)
    (hok : (extractZip cwd (Except.ok files) d fs).err = none) :
    extractZip cwd (Except.ok files) d (extractZip cwd (Except.ok files) d fs).fs =
      ⟨none, (extractZip cwd (Except.ok files) d fs).fs⟩ :=
  extractFiles_rerun cwd d files fs _ hok (fun _ => Or.inl rfl)

/-- C8 on the archive `a.txt`, `sub/b.txt`, `sub/empty/` extracted to `out`. -/
theorem extractZip_idempotent_witness :
    extractZip [] (Except.ok [entryA, entryB, entryEmpty]) outDir
        (extractZip [] (Except.ok [entryA, entryB, entryEmpty]) outDir ∅).fs =
      ⟨none, (extractZip [] (Except.ok [entryA, entryB, entryEmpty]) outDir ∅).fs⟩ :=
  extractZip_idempotent [] outDir [entryA, entryB, entryEmpty] ∅ (by decide)

/-- C9 as stated fails: to the status 201, a 2xx code, with body `ZIP`, `download`
answers with the protocol error `HTTP 201: ZIP` and creates no file. -/
theorem download_rejects_status_201 :
    (download netCreated [] [] "tok".toList zipSample ∅).err =
      some (Err.http 201 "ZIP".toList) ∧
    stat (download netCreated [] [] "tok".toList zipSample ∅).fs (resolve [] zipSample) =
      none := by
  decide

/-- C9, amended.  For a response with status code `s` and body `b` (the parent
directory of the destination was made and the request was answered): `download`
fails with the protocol error if and only if `s` is not 200; with `s` = 200, when no
I/O operation fails, it returns no error and the destination file holds exactly the
whole body. -/
theorem download_status_classification (net : Net) (cwd : Loc) (url token destPath : Str)
    (fs : FS) (resp : Response)
    (hm : (MkdirAll cwd (Dir destPath) fs).err = none)
    (hnet : net url token = Except.ok resp) :
    ((∃ body, (download net cwd url token destPath fs).err =
        some (Err.http resp.StatusCode body)) ↔ resp.StatusCode ≠ 200) ∧
    (resp.StatusCode = 200 → (download net cwd url token destPath fs).ioError = false →
      (download net cwd url token destPath fs).err = none ∧
      stat (download net cwd url token destPath fs).fs (resolve cwd destPath) =
        some (Node.file resp.Body)) := by
  constructor
  · constructor
    · rintro ⟨body, hb⟩ hs
      rcases download_success_cases net cwd url token destPath fs resp hm hnet hs with
        ⟨e, he, hio⟩ | ⟨he, _⟩
      · rw [he] at hb
        simp only [Option.some.injEq] at hb
        rw [hb] at hio
        exact absurd hio (by simp [Err.isIO])
      · rw [he] at hb
        exact absurd hb (by simp)
    · intro hs
      refine ⟨TrimSpace (resp.Body.take 4096), ?_⟩
      rw [download_of_failure net cwd url token destPath fs resp hm hnet hs]
  · intro hs hio
    rcases download_success_cases net cwd url token destPath fs resp hm hnet hs with
      ⟨e, he, hio'⟩ | h
    · simp [Outcome.ioError, he, hio'] at hio
    · exact h

/-- C9, amended, on the status 200 with body `ZIP`: the archive file holds `ZIP`. -/
theorem download_status_classification_witness :
    (download netOK [] [] "tok".toList zipSample ∅).err = none ∧
    stat (download netOK [] [] "tok".toList zipSample ∅).fs (resolve [] zipSample) =
      some (Node.file "ZIP".toList) :=
  (download_status_classification netOK [] [] "tok".toList zipSample ∅ ⟨200, "ZIP".toList, none⟩
    (by decide) rfl).2 rfl (by decide)

/-- C10.  For a response that `download` treats as a failure (status `s` other than
200, body `b`): the error message is `HTTP `, the decimal digits of `s`, `: ` and the
first 4096 bytes of `b` trimmed of surrounding white space, so it contains the digits
of `s` and carries a piece of at most the first 4096 bytes of `b`; a body of at most
4096 bytes without surrounding white space is in it verbatim; and no regular file is
created or modified anywhere, so a file at the destination path keeps its content. -/
theorem download_protocol_error (net : Net) (cwd : Loc) (url token destPath : Str)
    (fs : FS) (s : Nat) (b : Str) (readErr : Option Str)
    (hm : (MkdirAll cwd (Dir destPath) fs).err = none)
    (hnet : net url token = Except.ok ⟨s, b, readErr⟩)
    (hs : s ≠ StatusOK) :
    ∃ e, (download net cwd url token destPath fs).err = some e ∧
      e.Error = "HTTP ".toList ++ Nat.toDigits 10 s ++ ": ".toList ++
        TrimSpace (b.take 4096) ∧
      Nat.toDigits 10 s <:+: e.Error ∧
      TrimSpace (b.take 4096) <:+: b.take 4096 ∧
      (TrimSpace (b.take 4096)).length ≤ 4096 ∧
      (b.length ≤ 4096 → noSurroundingSpace b = true →
        e.Error = "HTTP ".toList ++ Nat.toDigits 10 s ++ ": ".toList ++ b) ∧
      (∀ q c, (download net cwd url token destPath fs).fs.lookup q = some (Node.file c) ↔
        fs.lookup q = some (Node.file c)) ∧
      (∀ c, stat fs (resolve cwd destPath) = some (Node.file c) →
        stat (download net cwd url token destPath fs).fs (resolve cwd destPath) =
          some (Node.file c)) := by
  have hd := download_of_failure net cwd url token destPath fs ⟨s, b, readErr⟩ hm hnet hs
  have hinf := TrimSpace_infix (b.take 4096)
  have hda := MkdirAll_dirsAdded cwd (Dir destPath) fs
  refine ⟨Err.http s (TrimSpace (b.take 4096)), by rw [hd], rfl, ?_, hinf, ?_, ?_, ?_, ?_⟩
  · exact ⟨"HTTP ".toList, ": ".toList ++ TrimSpace (b.take 4096), by
      simp [Err.Error, List.append_assoc]⟩
  · have := hinf.length_le
    simp only [List.length_take] at this
    omega
  · intro hlen hsp
    have : b.take 4096 = b := List.take_of_length_le hlen
    simp only [Err.Error]
    rw [this, TrimSpace_self b hsp]
  · intro q c
    rw [hd]
    simp only []
    rcases hda q with h | ⟨h1, h2⟩
    · rw [h]
    · rw [h1, h2]; simp
  · intro c hc
    rw [hd]
    simp only []
    refine hda.grows.stat_file _ c hc ?_
    rcases hda (resolve cwd destPath) with h | ⟨h1, _⟩
    · exact h
    · rw [stat_file_lookup _ _ _ hc] at h1
      exact absurd h1 (by simp)

/-- C10 on the status 404 with body `not found`: the error message is
`HTTP 404: not found`, and no archive file is left. -/
theorem download_protocol_error_witness :
    (∃ e, (download netNotFound [] [] "tok".toList zipSample ∅).err = some e ∧
      e.Error = "HTTP 404: not found".toList) ∧
    stat (download netNotFound [] [] "tok".toList zipSample ∅).fs (resolve [] zipSample) =
      none :=
  ⟨match download_protocol_error netNotFound [] [] "tok".toList zipSample ∅ 404
      "not found".toList none (by decide) rfl (by decide) with
    | ⟨e, he, _, _, _, _, hv, _⟩ => ⟨e, he, (hv (by decide) (by decide)).trans (by decide)⟩,
   by decide⟩

end TeamcityDl
